import Mathlib

/-! # Round resolver of Phenomenon (`src/src/source.js`)

A shallow embedding of the Chainlink-Functions script that resolves one turn of
the game, and the properties of it that the specification states.

Modelling conventions.

* A JavaScript Number is a rational, extended with `NaN` and the two
  infinities (`Num`).  There is no negative zero.
* Two embeddings of the script are given.  `response` evaluates every
  operation exactly, as the specification reads the formulas.  `responseF`
  evaluates them as the script does, in binary64 arithmetic: every argument is
  converted to the nearest binary64 Number (`fl`), sums, products and
  quotients are rounded to nearest with ties to even and overflow to an
  infinity, and the remainder and the floor are exact.
* The five positional arguments and the secret are given by their numeric
  values (`ℚ`); `accuseStringShare` and `accuseText` are the accuse branch
  when `args[4]` is a string.
* `Math.random()` is an explicit source of draws `rng : ℕ → ℚ`; the `k`-th call
  of the script returns `rng k`.
* `console.log` has no effect on the result and is dropped;
  `Functions.encodeString` is the transport framing of the response and is
  the identity on the response string.
-/

namespace Phenomenon

/-- A JavaScript Number: a finite value, an infinity, or NaN. -/
inductive Num where
  | fin (q : ℚ)
  | posInf
  | negInf
  | nan
  deriving DecidableEq

/-- Rounding toward zero, the integer quotient used by the remainder operator. -/
def trunc (x : ℚ) : ℤ :=
  if 0 ≤ x then ⌊x⌋ else ⌈x⌉

/-- The operator `a % n` on finite numbers with `n` non-zero: the remainder has
the sign of the dividend, `a - n * trunc (a / n)`. -/
def fmod (a n : ℚ) : ℚ :=
  a - n * (trunc (a / n) : ℚ)

/-- The operator `a / b` on finite numbers. -/
def jsDiv (a b : ℚ) : Num :=
  if b ≠ 0 then Num.fin (a / b)
  else if a = 0 then Num.nan
  else if 0 < a then Num.posInf
  else Num.negInf

/-- The operator `x % n` with a finite right operand: NaN when the dividend
is not finite or the divisor is zero. -/
def jsMod (x : Num) (n : ℚ) : Num :=
  match x with
  | Num.fin a => if n = 0 then Num.nan else Num.fin (fmod a n)
  | _ => Num.nan

/-- The function `Math.floor`. -/
def jsFloor (x : Num) : Num :=
  match x with
  | Num.fin a => Num.fin ((⌊a⌋ : ℤ) : ℚ)
  | y => y

/-- The operator `a != c` between a finite number and a Number: NaN and the
infinities differ from every finite number. -/
def looseNe (a : ℚ) (c : Num) : Bool :=
  match c with
  | Num.fin q => decide (a ≠ q)
  | _ => true

/-- The literal the script initialises `decryptor` with. -/
def decryptorDefault : ℚ :=
  7983442720963060024057948886542171092952310290025484363884501439

/-- The value of `decryptor` after `if (secrets.decryptor) decryptor = secrets.decryptor`:
the secret when it is present and truthy (non-zero), the literal otherwise. -/
def decryptor (secret : Option ℚ) : ℚ :=
  match secret with
  | some d => if d ≠ 0 then d else decryptorDefault
  | none => decryptorDefault

/-- The positional arguments `args[0]` .. `args[4]`. -/
structure Args where
  _RandomnessSeed : ℚ
  _numProphets : ℚ
  _action : ℚ
  _currentProphetTurn : ℚ
  _ticketShare : ℚ

/-- The Chosen One: `Math.floor((_RandomnessSeed / decryptor) % _numProphets)`. -/
def chosenOne (_RandomnessSeed decryptor _numProphets : ℚ) : Num :=
  jsFloor (jsMod (jsDiv _RandomnessSeed decryptor) _numProphets)

/-- The loop of the `_action == 3` branch, entered at `_prophet` with `k`
draws already taken and `response` built so far.  A prophet other than the
Chosen One takes one draw; `k1` is the number of draws taken after the pass. -/
def startGameLoop (_numProphets : ℚ) (chosen : Num) (rng : ℕ → ℚ)
    (_prophet k : ℕ) (response : String) : String :=
  if h : (_prophet : ℚ) < _numProphets then
    let result :=
      if looseNe (_prophet : ℚ) chosen then
        if 1 + fmod (rng k * 100) 100 < 25 then "0" else "1"
      else "1"
    let k1 := if looseNe (_prophet : ℚ) chosen then k + 1 else k
    startGameLoop _numProphets chosen rng (_prophet + 1) k1 (response ++ result)
  else response
termination_by ⌈_numProphets⌉₊ - _prophet
decreasing_by
  have hlt : _prophet < ⌈_numProphets⌉₊ := Nat.lt_ceil.mpr h
  omega

/-- The final value of `response`, for a given `decryptor`. -/
def response (decryptor : ℚ) (a : Args) (rng : ℕ → ℚ) : String :=
  let chosen := chosenOne a._RandomnessSeed decryptor a._numProphets
  if a._action = 0 then
    let result :=
      if looseNe a._currentProphetTurn chosen then
        if 1 + fmod (rng 0 * 100) 100 + a._ticketShare / 10 < 25 then "0" else "1"
      else "1"
    "" ++ result
  else if a._action = 1 then
    let result :=
      if looseNe a._currentProphetTurn chosen then
        if 1 + fmod (rng 0 * 100) 100 + a._ticketShare / 2 < 90 then "2" else "3"
      else "3"
    "" ++ result
  else if a._action = 2 then
    let result :=
      if 1 + fmod (rng 0 * 100) 100 + a._ticketShare < 90 then "4" else "5"
    "" ++ result
  else if a._action = 3 then
    startGameLoop a._numProphets chosen rng 0 0 ""
  else ""

/-- The script as a whole: it has no `throw` and no validation step, so it
always completes by returning the response. -/
def script (secret : Option ℚ) (a : Args) (rng : ℕ → ℚ) : Except String String :=
  Except.ok (response (decryptor secret) a rng)

/-- The Chosen One in the words of the specification: exact integer division
of the seed by the divisor, then modulo the player count. -/
def chosenOneExact (seed divisor playerCount : ℕ) : ℕ :=
  (seed / divisor) % playerCount

/-- The index of the draw that prophet `i` takes in the start-game loop when
the Chosen One is `c`: the Chosen One takes no draw, so the prophets before
`c` take the draws in index order and those after `c` are shifted by one. -/
def drawIndex (c i : ℕ) : ℕ :=
  if i < c then i else i - 1

/-- The conversion of a string of decimal digits to a Number, as the operator
`<` applies it to a string operand compared with a Number. -/
def digitsToNumber (s : String) : ℕ :=
  s.data.foldl (fun acc ch => 10 * acc + (ch.toNat - 48)) 0

/-- The `_action == 2` branch when `args[4]` arrives as the decimal string of
the whole number `_ticketShare` and the roll is the whole number `roll`:
`1 + roll` is a Number, the operator `+` with a string operand concatenates
the decimal form of that Number with the string, and the comparison with
`accuseFailureOdds` converts the concatenation back to a Number. -/
def accuseStringShare (roll _ticketShare : ℕ) : String :=
  let score := Nat.repr (1 + roll) ++ Nat.repr _ticketShare
  let result := if digitsToNumber score < 90 then "4" else "5"
  "" ++ result

/-! ## Binary64 arithmetic -/

/-- Rounding to the nearest integer, a tie going to the even neighbour. -/
def roundHalfEven (m : ℚ) : ℤ :=
  if m - (⌊m⌋ : ℚ) < 1 / 2 then ⌊m⌋
  else if 1 / 2 < m - (⌊m⌋ : ℚ) then ⌊m⌋ + 1
  else if ⌊m⌋ % 2 = 0 then ⌊m⌋ else ⌊m⌋ + 1

/-- The binary exponent of the binade of a magnitude, held at -1022 for the
subnormal range. -/
def binade (a : ℚ) : ℤ :=
  max (Int.log 2 a) (-1022)

/-- The spacing of the binary64 values around a magnitude: 52 fraction bits
below the exponent of its binade. -/
def ulp (a : ℚ) : ℚ :=
  (2 : ℚ) ^ (binade a - 52)

/-- A magnitude rounded to the binary64 grid, before the overflow check. -/
def roundMag (a : ℚ) : ℚ :=
  (roundHalfEven (a / ulp a) : ℚ) * ulp a

/-- The binary64 Number nearest to an exact value (ties to even); a rounded
magnitude of 2^1024 or more is an infinity. -/
def fl (x : ℚ) : Num :=
  if 2 ^ 1024 ≤ roundMag |x| then (if 0 ≤ x then Num.posInf else Num.negInf)
  else Num.fin (if 0 ≤ x then roundMag |x| else -roundMag |x|)

/-- The operator `+` on Numbers. -/
def addNum (x y : Num) : Num :=
  match x, y with
  | Num.fin a, Num.fin b => fl (a + b)
  | Num.nan, _ => Num.nan
  | _, Num.nan => Num.nan
  | Num.posInf, Num.negInf => Num.nan
  | Num.negInf, Num.posInf => Num.nan
  | Num.posInf, _ => Num.posInf
  | Num.negInf, _ => Num.negInf
  | _, Num.posInf => Num.posInf
  | _, Num.negInf => Num.negInf

/-- The operator `/` on Numbers (the sign of a zero divisor is taken as
positive). -/
def divNum (x y : Num) : Num :=
  match x, y with
  | Num.fin a, Num.fin b =>
    if b ≠ 0 then fl (a / b)
    else if a = 0 then Num.nan
    else if 0 < a then Num.posInf
    else Num.negInf
  | Num.nan, _ => Num.nan
  | _, Num.nan => Num.nan
  | Num.fin _, _ => Num.fin 0
  | Num.posInf, Num.fin b => if 0 ≤ b then Num.posInf else Num.negInf
  | Num.negInf, Num.fin b => if 0 ≤ b then Num.negInf else Num.posInf
  | _, _ => Num.nan

/-- The operator `%` on Numbers: the remainder of finite operands is exact,
a finite dividend is unchanged by an infinite divisor, and the result is NaN
for an infinite dividend or a zero divisor. -/
def modNum (x y : Num) : Num :=
  match x, y with
  | Num.fin a, Num.fin b => if b = 0 then Num.nan else Num.fin (fmod a b)
  | Num.fin a, Num.posInf => Num.fin a
  | Num.fin a, Num.negInf => Num.fin a
  | _, _ => Num.nan

/-- The operator `<` on Numbers: false when an operand is NaN. -/
def ltNum (x y : Num) : Bool :=
  match x, y with
  | Num.fin a, Num.fin b => decide (a < b)
  | Num.fin _, Num.posInf => true
  | Num.negInf, Num.fin _ => true
  | Num.negInf, Num.posInf => true
  | _, _ => false

/-- The operator `!=` on Numbers: NaN differs from everything, itself
included. -/
def neNum (x y : Num) : Bool :=
  match x, y with
  | Num.nan, _ => true
  | _, Num.nan => true
  | a, b => decide (a ≠ b)

/-- The operator `==` on Numbers. -/
def eqNum (x y : Num) : Bool :=
  !neNum x y

/-- The Chosen One in binary64 arithmetic: the seed, the divisor and the
player count are converted to Numbers, the quotient is rounded, the remainder
and the floor are exact. -/
def chosenOneF (_RandomnessSeed decryptor _numProphets : ℚ) : Num :=
  jsFloor (modNum (divNum (fl _RandomnessSeed) (fl decryptor)) (fl _numProphets))

/-- The value of `(Math.random() * 100) % 100` when `Math.random()` returns
the Number `r`. -/
def rollF (r : ℚ) : Num :=
  modNum (fl (r * 100)) (Num.fin 100)

/-- The loop of the `_action == 3` branch in binary64 arithmetic, for a finite
`_numProphets` of at most 2^53 (so that `_prophet++` is exact). -/
def startGameLoopF (_numProphets : ℚ) (chosen : Num) (rng : ℕ → ℚ)
    (_prophet k : ℕ) (response : String) : String :=
  if h : (_prophet : ℚ) < _numProphets then
    let result :=
      if neNum (Num.fin (_prophet : ℚ)) chosen then
        if ltNum (addNum (Num.fin 1) (rollF (rng k))) (Num.fin 25) then "0" else "1"
      else "1"
    let k1 := if neNum (Num.fin (_prophet : ℚ)) chosen then k + 1 else k
    startGameLoopF _numProphets chosen rng (_prophet + 1) k1 (response ++ result)
  else response
termination_by ⌈_numProphets⌉₊ - _prophet
decreasing_by
  have hlt : _prophet < ⌈_numProphets⌉₊ := Nat.lt_ceil.mpr h
  omega

/-- The final value of `response` in binary64 arithmetic.  The arguments are
converted to Numbers where the script uses them as operands of `/`, `%`, `==`,
`!=` and `<`; in the `_action == 2` branch `_ticketShare` is an operand of `+`
and is taken to be a Number here (for a string see `accuseText`).  The result
is `none` when the start-game loop cannot complete: a player count that
converts to Infinity, or one beyond 2^53, where `_prophet++` no longer
advances. -/
def responseF (decryptor : ℚ) (a : Args) (rng : ℕ → ℚ) : Option String :=
  let chosen := chosenOneF a._RandomnessSeed decryptor a._numProphets
  if eqNum (fl a._action) (Num.fin 0) then
    let result :=
      if neNum (fl a._currentProphetTurn) chosen then
        if ltNum (addNum (addNum (Num.fin 1) (rollF (rng 0)))
            (divNum (fl a._ticketShare) (Num.fin 10))) (Num.fin 25) then "0" else "1"
      else "1"
    some ("" ++ result)
  else if eqNum (fl a._action) (Num.fin 1) then
    let result :=
      if neNum (fl a._currentProphetTurn) chosen then
        if ltNum (addNum (addNum (Num.fin 1) (rollF (rng 0)))
            (divNum (fl a._ticketShare) (Num.fin 2))) (Num.fin 90) then "2" else "3"
      else "3"
    some ("" ++ result)
  else if eqNum (fl a._action) (Num.fin 2) then
    let result :=
      if ltNum (addNum (addNum (Num.fin 1) (rollF (rng 0))) (fl a._ticketShare))
          (Num.fin 90) then "4" else "5"
    some ("" ++ result)
  else if eqNum (fl a._action) (Num.fin 3) then
    match fl a._numProphets with
    | Num.fin n =>
      if n ≤ 2 ^ 53 then some (startGameLoopF n chosen rng 0 0 "") else none
    | Num.posInf => none
    | _ => some ""
  else some ""

/-- The digits of a decimal text `ddd` or `ddd.ddd`, read as one whole
number with the point removed. -/
def decimalDigits (s : String) : ℕ :=
  digitsToNumber (String.mk (s.data.filter (fun ch => ch != '.')))

/-- The number of digits after the point of a decimal text. -/
def decimalPlaces (s : String) : ℕ :=
  ((s.data.dropWhile (fun ch => ch != '.')).drop 1).length

/-- The exact value of a decimal text `ddd` or `ddd.ddd`. -/
def decimalValue (s : String) : ℚ :=
  (decimalDigits s : ℚ) / 10 ^ decimalPlaces s

/-- The conversion of a decimal text to a Number, as the operator `<` applies
it to a string operand compared with a Number. -/
def textToNumber (s : String) : Num :=
  fl (decimalValue s)

/-- The `_action == 2` branch when `args[4]` arrives as a string, from the
point where `1 + roll` has been converted to its text `scoreText` by the
operator `+` (the shortest decimal text that converts back to the same
Number): the texts are concatenated and the concatenation is converted back to
a Number for the comparison with `accuseFailureOdds`. -/
def accuseText (scoreText _ticketShare : String) : String :=
  let score := scoreText ++ _ticketShare
  let result := if ltNum (textToNumber score) (Num.fin 90) then "4" else "5"
  "" ++ result

/-! ## Arithmetic of the remainder operator -/

theorem trunc_of_nonneg (x : ℚ) (h : 0 ≤ x) : trunc x = ⌊x⌋ := by
  simp [trunc, h]

theorem fmod_nonneg_lt (a n : ℚ) (ha : 0 ≤ a) (hn : 0 < n) :
    0 ≤ fmod a n ∧ fmod a n < n := by
  have hq : 0 ≤ a / n := div_nonneg ha hn.le
  have h1 : (⌊a / n⌋ : ℚ) ≤ a / n := Int.floor_le _
  have h2 : a / n < (⌊a / n⌋ : ℚ) + 1 := Int.lt_floor_add_one _
  have h3 : a = n * (a / n) := by field_simp
  unfold fmod
  rw [trunc_of_nonneg _ hq]
  constructor
  · nlinarith
  · nlinarith

theorem fmod_eq_self (a n : ℚ) (ha : 0 ≤ a) (hn : a < n) : fmod a n = a := by
  have hpos : 0 < n := lt_of_le_of_lt ha hn
  have hq : 0 ≤ a / n := div_nonneg ha hpos.le
  have hlt : a / n < 1 := (div_lt_one hpos).mpr hn
  have hfl : ⌊a / n⌋ = 0 := by
    rw [Int.floor_eq_iff]
    constructor
    · simpa using hq
    · simpa using hlt
  unfold fmod
  rw [trunc_of_nonneg _ hq, hfl]
  simp

/-- The roll expression of the script returns the roll itself when the draw is
the roll divided by 100. -/
theorem roll_of_draw (x roll : ℚ) (hx : x = roll / 100) (h0 : 0 ≤ roll) (h1 : roll < 100) :
    fmod (x * 100) 100 = roll := by
  have : x * 100 = roll := by rw [hx]; ring
  rw [this]
  exact fmod_eq_self roll 100 h0 h1

/-! ## The Chosen One -/

theorem chosenOne_eq (seed d n : ℚ) (hd : d ≠ 0) (hn : n ≠ 0) :
    chosenOne seed d n = Num.fin ((⌊fmod (seed / d) n⌋ : ℤ) : ℚ) := by
  simp [chosenOne, jsDiv, jsMod, jsFloor, hd, hn]

theorem looseNe_fin_self (a : ℚ) : looseNe a (Num.fin a) = false := by
  simp [looseNe]

/-! ## The start-game loop -/

theorem startGameLoop_done (n : ℚ) (chosen : Num) (rng : ℕ → ℚ) (p k : ℕ) (resp : String)
    (h : ¬ (p : ℚ) < n) : startGameLoop n chosen rng p k resp = resp := by
  rw [startGameLoop]
  simp [h]

/-! ## The claims that hold of the exact embedding -/

/-- C2: for Miracle (action 0) and Smite (action 1), when the acting turn is
the Chosen One the response is the success character, "1" resp. "3", whatever
the draws and the stake share are. -/
theorem chosen_one_always_succeeds (divisor : ℚ) (a : Args) (rng : ℕ → ℚ)
    (h : chosenOne a._RandomnessSeed divisor a._numProphets = Num.fin a._currentProphetTurn) :
    (a._action = 0 → response divisor a rng = "1") ∧
    (a._action = 1 → response divisor a rng = "3") := by
  constructor
  · intro h0
    simp [response, h0, h, looseNe_fin_self]
  · intro h1
    have h0 : a._action ≠ 0 := by rw [h1]; norm_num
    simp [response, h0, h1, h, looseNe_fin_self]

theorem chosen_one_always_succeeds_witness :
    chosenOne 17 2 5 = Num.fin 3 ∧
      response 2 ⟨17, 5, 0, 3, 40⟩ (fun _ => 0) = "1" ∧
      response 2 ⟨17, 5, 1, 3, 40⟩ (fun _ => 0) = "3" := by
  have hc : chosenOne 17 2 5 = Num.fin 3 := by
    simp [chosenOne, jsDiv, jsMod, jsFloor, fmod, trunc]
    norm_num
  exact ⟨hc, (chosen_one_always_succeeds 2 ⟨17, 5, 0, 3, 40⟩ (fun _ => 0) hc).1 rfl,
    (chosen_one_always_succeeds 2 ⟨17, 5, 1, 3, 40⟩ (fun _ => 0) hc).2 rfl⟩

/-- C3: for Accuse (action 2) two invocations with the same roll and the same
stake share give the same response, whatever their divisors, seeds, player
counts and acting turns are. -/
theorem accuse_depends_only_on_roll_and_stake (d1 d2 : ℚ) (a1 a2 : Args) (rng1 rng2 : ℕ → ℚ)
    (h1 : a1._action = 2) (h2 : a2._action = 2)
    (hroll : fmod (rng1 0 * 100) 100 = fmod (rng2 0 * 100) 100)
    (hstake : a1._ticketShare = a2._ticketShare) :
    response d1 a1 rng1 = response d2 a2 rng2 := by
  simp [response, h1, h2, hroll, hstake]

theorem accuse_depends_only_on_roll_and_stake_witness :
    response 2 ⟨17, 5, 2, 3, 40⟩ (fun _ => 1 / 2) =
      response 3 ⟨4, 7, 2, 0, 40⟩ (fun k => if k = 0 then 1 / 2 else 0) :=
  accuse_depends_only_on_roll_and_stake 2 3 ⟨17, 5, 2, 3, 40⟩ ⟨4, 7, 2, 0, 40⟩
    (fun _ => 1 / 2) (fun k => if k = 0 then 1 / 2 else 0) rfl rfl (by simp) rfl

/-- C7 as stated fails: with action 9 the script completes without an error
and returns the empty response string. -/
theorem unknown_action_nine_returns_empty :
    script none ⟨0, 5, 9, 0, 0⟩ (fun _ => 0) = Except.ok "" := by
  simp [script, response]

/-- C7, amended: for every action value outside 0, 1, 2, 3 no branch matches;
the script raises no error and returns the empty response string. -/
theorem unknown_action_returns_empty (secret : Option ℚ) (a : Args) (rng : ℕ → ℚ)
    (h0 : a._action ≠ 0) (h1 : a._action ≠ 1) (h2 : a._action ≠ 2) (h3 : a._action ≠ 3) :
    script secret a rng = Except.ok "" := by
  simp [script, response, h0, h1, h2, h3]

theorem unknown_action_returns_empty_witness :
    script (some 2) ⟨17, 5, 4, 1, 50⟩ (fun _ => 1 / 2) = Except.ok "" :=
  unknown_action_returns_empty (some 2) ⟨17, 5, 4, 1, 50⟩ (fun _ => 1 / 2)
    (by norm_num) (by norm_num) (by norm_num) (by norm_num)

/-- C8 as stated fails: with playerCount 0 and action 0 the script raises no
validation error; the Chosen One is NaN, the roll is taken and a response is
returned. -/
theorem zero_players_still_responds :
    chosenOne 0 decryptorDefault 0 = Num.nan ∧
      script none ⟨0, 0, 0, 0, 0⟩ (fun _ => 0) = Except.ok "0" := by
  have hc : chosenOne 0 decryptorDefault 0 = Num.nan := by
    simp [chosenOne, jsDiv, jsMod, jsFloor, decryptorDefault]
  have hroll : fmod 0 100 = 0 := fmod_eq_self 0 100 (by norm_num) (by norm_num)
  refine ⟨hc, ?_⟩
  simp [script, response, decryptor, hc, looseNe, hroll]

/-- C8, amended: for every playerCount <= 0 the script validates nothing and
raises no error; it returns a response, of one character for actions 0, 1 and
2 and empty for action 3 (the loop body never runs) and for any other
action. -/
theorem nonpositive_players_not_rejected (secret : Option ℚ) (a : Args) (rng : ℕ → ℚ)
    (hn : a._numProphets ≤ 0) :
    ∃ s : String, script secret a rng = Except.ok s ∧
      ((a._action = 0 ∨ a._action = 1 ∨ a._action = 2) → s.length = 1) ∧
      (¬ (a._action = 0 ∨ a._action = 1 ∨ a._action = 2) → s = "") := by
  refine ⟨response (decryptor secret) a rng, rfl, ?_, ?_⟩
  · rintro (h | h | h)
    · simp only [response, h, if_true]
      split_ifs <;> rfl
    · have h0 : a._action ≠ 0 := by rw [h]; norm_num
      simp only [response, h, h0, if_true, if_false]
      split_ifs <;> rfl
    · have h0 : a._action ≠ 0 := by rw [h]; norm_num
      have h1 : a._action ≠ 1 := by rw [h]; norm_num
      simp only [response, h, h0, h1, if_true, if_false]
      split_ifs <;> rfl
  · intro h
    push_neg at h
    obtain ⟨h0, h1, h2⟩ := h
    by_cases h3 : a._action = 3
    · have hloop : ¬ (((0 : ℕ) : ℚ) < a._numProphets) := by
        simpa using hn
      simp only [response, h0, h1, h2, h3, if_true, if_false]
      exact startGameLoop_done _ _ _ _ _ _ hloop
    · simp [response, h0, h1, h2, h3]

theorem nonpositive_players_not_rejected_witness :
    (-3 : ℚ) ≤ 0 ∧ script none ⟨17, -3, 3, 0, 0⟩ (fun _ => 0) = Except.ok "" := by
  obtain ⟨s, hs, _, hempty⟩ :=
    nonpositive_players_not_rejected none ⟨17, -3, 3, 0, 0⟩ (fun _ => 0) (by norm_num)
  have hs0 : s = "" := hempty (by norm_num)
  exact ⟨by norm_num, by rw [hs, hs0]⟩

theorem chosenOne_exact_aux (seed divisor playerCount : ℕ) :
    ⌊fmod ((seed : ℚ) / (divisor : ℚ)) (playerCount : ℚ)⌋ =
      ((seed / divisor % playerCount : ℕ) : ℤ) := by
  have hq : (0 : ℚ) ≤ (seed : ℚ) / (divisor : ℚ) / (playerCount : ℚ) := by positivity
  have hdn : (seed : ℚ) / (divisor : ℚ) / (playerCount : ℚ) =
      (seed : ℚ) / ((divisor * playerCount : ℕ) : ℚ) := by
    push_cast
    rw [div_div]
  have hfl : ⌊(seed : ℚ) / (divisor : ℚ) / (playerCount : ℚ)⌋ =
      ((seed / divisor / playerCount : ℕ) : ℤ) := by
    rw [hdn, Rat.floor_natCast_div_natCast, Nat.div_div_eq_div_mul, ← Int.natCast_div]
  unfold fmod
  rw [trunc_of_nonneg _ hq, hfl]
  have hcast : (playerCount : ℚ) * (((seed / divisor / playerCount : ℕ) : ℤ) : ℚ)
      = (((playerCount * (seed / divisor / playerCount) : ℕ) : ℤ) : ℚ) := by
    push_cast; ring
  rw [hcast, Int.floor_sub_int, Rat.floor_natCast_div_natCast, ← Int.natCast_div]
  have hdm := Nat.div_add_mod (seed / divisor) playerCount
  generalize seed / divisor = q at hdm ⊢
  generalize playerCount * (q / playerCount) = m at hdm ⊢
  generalize q % playerCount = r at hdm ⊢
  omega

/-- C12: under exact arithmetic the formula of the script,
`floor((seed / divisor) % playerCount)` with the exact quotient, equals integer
division followed by modulo, for every seed >= 0, divisor > 0 and
playerCount >= 1. -/
theorem chosenOne_refines_exact (seed divisor playerCount : ℕ)
    (hd : 0 < divisor) (hn : 1 ≤ playerCount) :
    chosenOne (seed : ℚ) (divisor : ℚ) (playerCount : ℚ) =
      Num.fin ((chosenOneExact seed divisor playerCount : ℕ) : ℚ) := by
  have hdq : (divisor : ℚ) ≠ 0 := by exact_mod_cast hd.ne'
  have hnq : (playerCount : ℚ) ≠ 0 := by
    have : playerCount ≠ 0 := by omega
    exact_mod_cast this
  rw [chosenOne_eq _ _ _ hdq hnq, chosenOne_exact_aux]
  simp only [chosenOneExact, Int.cast_natCast]

theorem chosenOne_refines_exact_witness :
    0 < 2 ∧ 1 ≤ 5 ∧
      chosenOne ((17 : ℕ) : ℚ) ((2 : ℕ) : ℚ) ((5 : ℕ) : ℚ) =
        Num.fin ((chosenOneExact 17 2 5 : ℕ) : ℚ) :=
  ⟨by decide, by decide, chosenOne_refines_exact 17 2 5 (by decide) (by decide)⟩

/-- C13: with seed 0, for every divisor > 0 and every playerCount >= 1, the
Chosen One is 0, and action 0 with acting turn 0 and stake share 0 returns
"1" for every draw. -/
theorem zero_seed_miracle (divisor playerCount : ℚ) (rng : ℕ → ℚ)
    (hd : 0 < divisor) (hn : 1 ≤ playerCount) :
    chosenOne 0 divisor playerCount = Num.fin 0 ∧
      response divisor ⟨0, playerCount, 0, 0, 0⟩ rng = "1" := by
  have hnpos : 0 < playerCount := by linarith
  have hc : chosenOne 0 divisor playerCount = Num.fin 0 := by
    rw [chosenOne_eq _ _ _ hd.ne' hnpos.ne']
    have : fmod (0 / divisor) playerCount = 0 := by
      rw [zero_div]
      exact fmod_eq_self 0 playerCount le_rfl hnpos
    rw [this]
    simp
  exact ⟨hc, by simp [response, hc, looseNe_fin_self]⟩

theorem zero_seed_miracle_witness :
    (0 : ℚ) < decryptorDefault ∧ (1 : ℚ) ≤ 5 ∧
      chosenOne 0 decryptorDefault 5 = Num.fin 0 ∧
      response decryptorDefault ⟨0, 5, 0, 0, 0⟩ (fun _ => 1 / 2) = "1" :=
  ⟨by norm_num [decryptorDefault], by norm_num,
    zero_seed_miracle decryptorDefault 5 (fun _ => 1 / 2)
      (by norm_num [decryptorDefault]) (by norm_num)⟩

/-- C14: for every action value outside 0, 1, 2, 3 no branch matches and the
response is the empty string, for every seed, player count, acting turn and
stake share. -/
theorem unknown_action_response_empty (divisor : ℚ) (a : Args) (rng : ℕ → ℚ)
    (h : ¬ (a._action = 0 ∨ a._action = 1 ∨ a._action = 2 ∨ a._action = 3)) :
    response divisor a rng = "" := by
  push_neg at h
  obtain ⟨h0, h1, h2, h3⟩ := h
  simp [response, h0, h1, h2, h3]

theorem unknown_action_response_empty_witness :
    ¬ ((9 : ℚ) = 0 ∨ (9 : ℚ) = 1 ∨ (9 : ℚ) = 2 ∨ (9 : ℚ) = 3) ∧
      response 2 ⟨17, 5, 9, 1, 50⟩ (fun _ => 1 / 2) = "" :=
  ⟨by norm_num,
    unknown_action_response_empty 2 ⟨17, 5, 9, 1, 50⟩ (fun _ => 1 / 2) (by norm_num)⟩

/-- C16: the divisor is the configured override whenever one is supplied and
non-zero, and the fixed default constant otherwise; with an override present
the Chosen One and the response are computed from the override alone. -/
theorem decryptor_override_or_default (d seed playerCount : ℚ) (a : Args) (rng : ℕ → ℚ)
    (hd : d ≠ 0) :
    decryptor (some d) = d ∧
    decryptor none = 7983442720963060024057948886542171092952310290025484363884501439 ∧
    decryptor (some 0) = 7983442720963060024057948886542171092952310290025484363884501439 ∧
    chosenOne seed (decryptor (some d)) playerCount = chosenOne seed d playerCount ∧
    script (some d) a rng = Except.ok (response d a rng) := by
  have h1 : decryptor (some d) = d := by simp [decryptor, hd]
  refine ⟨h1, rfl, by simp [decryptor, decryptorDefault], by rw [h1], ?_⟩
  simp [script, h1]

theorem decryptor_override_or_default_witness :
    (3 : ℚ) ≠ 0 ∧ decryptor (some 3) = 3 ∧
      chosenOne 17 (decryptor (some 3)) 5 = chosenOne 17 3 5 := by
  have h := decryptor_override_or_default 3 17 5 ⟨17, 5, 0, 0, 0⟩ (fun _ => 0) (by norm_num)
  exact ⟨by norm_num, h.1, h.2.2.2.1⟩

/-- C17: with the default divisor, for every seed below 2^256 the integer
quotient of the seed by the divisor is below 10^16 and below 2^53. -/
theorem default_quotient_small (seed : ℕ) (h : seed < 2 ^ 256) :
    ⌊(seed : ℚ) / decryptor none⌋ =
      ((seed / 7983442720963060024057948886542171092952310290025484363884501439 : ℕ) : ℤ) ∧
    ⌊(seed : ℚ) / decryptor none⌋ < 10 ^ 16 ∧
    ⌊(seed : ℚ) / decryptor none⌋ < 2 ^ 53 := by
  have hD : decryptor none =
      ((7983442720963060024057948886542171092952310290025484363884501439 : ℕ) : ℚ) := by
    simp [decryptor, decryptorDefault]
  have hfl : ⌊(seed : ℚ) / decryptor none⌋ =
      ((seed / 7983442720963060024057948886542171092952310290025484363884501439 : ℕ) : ℤ) := by
    rw [hD, Rat.floor_natCast_div_natCast, ← Int.natCast_div]
  have hq : seed / 7983442720963060024057948886542171092952310290025484363884501439
      < 14504029562744 := by
    rw [Nat.div_lt_iff_lt_mul (by norm_num)]
    calc seed < 2 ^ 256 := h
      _ ≤ 14504029562744 *
          7983442720963060024057948886542171092952310290025484363884501439 := by norm_num
  rw [hfl]
  refine ⟨rfl, ?_, ?_⟩
  · have : ((seed / 7983442720963060024057948886542171092952310290025484363884501439 : ℕ) : ℤ)
        < 14504029562744 := by exact_mod_cast hq
    linarith
  · have : ((seed / 7983442720963060024057948886542171092952310290025484363884501439 : ℕ) : ℤ)
        < 14504029562744 := by exact_mod_cast hq
    calc _ < (14504029562744 : ℤ) := this
      _ < 2 ^ 53 := by norm_num

theorem default_quotient_small_witness :
    5 < 2 ^ 256 ∧ ⌊((5 : ℕ) : ℚ) / decryptor none⌋ < 10 ^ 16 ∧
      ⌊((5 : ℕ) : ℚ) / decryptor none⌋ < 2 ^ 53 :=
  ⟨by norm_num, (default_quotient_small 5 (by norm_num)).2⟩

/-- C18 fails on the code: with the stake share supplied as the string "50"
and the roll 25, the accuse score is the concatenation "2650", not 76, and the
response is "5", while the same stake share supplied as a number gives "4". -/
theorem accuse_string_share_diverges :
    accuseStringShare 25 50 = "5" ∧
      response decryptorDefault ⟨17, 5, 2, 1, 50⟩ (fun _ => 25 / 100) = "4" := by
  have hroll : fmod (25 / 100 * 100) 100 = 25 :=
    roll_of_draw (25 / 100) 25 rfl (by norm_num) (by norm_num)
  refine ⟨by decide, ?_⟩
  simp only [response]
  rw [hroll]
  norm_num

/-! ## Rounding to binary64 -/

theorem roundHalfEven_intCast (k : ℤ) : roundHalfEven (k : ℚ) = k := by
  simp [roundHalfEven]

theorem floor_le_roundHalfEven (m : ℚ) : ⌊m⌋ ≤ roundHalfEven m := by
  unfold roundHalfEven
  split_ifs <;> omega

theorem roundHalfEven_le_of_le (m : ℚ) (k : ℤ) (h : m ≤ (k : ℚ)) : roundHalfEven m ≤ k := by
  have hfl : ⌊m⌋ ≤ k := by
    have : ((⌊m⌋ : ℤ) : ℚ) ≤ (k : ℚ) := le_trans (Int.floor_le m) h
    exact_mod_cast this
  unfold roundHalfEven
  split_ifs with h1 h2 h3
  · exact hfl
  · have hlt : ((⌊m⌋ : ℤ) : ℚ) < (k : ℚ) := by linarith
    have : ⌊m⌋ < k := by exact_mod_cast hlt
    omega
  · exact hfl
  · have hlt : ((⌊m⌋ : ℤ) : ℚ) < (k : ℚ) := by linarith
    have : ⌊m⌋ < k := by exact_mod_cast hlt
    omega

theorem le_roundHalfEven_of_le (m : ℚ) (k : ℤ) (h : (k : ℚ) ≤ m) : k ≤ roundHalfEven m :=
  le_trans (Int.le_floor.mpr h) (floor_le_roundHalfEven m)

theorem ulp_pos (a : ℚ) : 0 < ulp a := by
  unfold ulp
  positivity

theorem binade_eq (a : ℚ) (e : ℤ) (he : -1022 ≤ e) (hlo : (2 : ℚ) ^ e ≤ a)
    (hhi : a < (2 : ℚ) ^ (e + 1)) : binade a = e := by
  have hpos : 0 < a := lt_of_lt_of_le (by positivity) hlo
  have h1 : e ≤ Int.log 2 a := by
    have := (Int.zpow_le_iff_le_log (b := 2) (by norm_num) hpos (x := e)).mp (by exact_mod_cast hlo)
    exact this
  have h2 : Int.log 2 a < e + 1 := by
    have := (Int.lt_zpow_iff_log_lt (b := 2) (by norm_num) hpos (x := e + 1)).mp
      (by exact_mod_cast hhi)
    exact this
  unfold binade
  omega

theorem binade_le (a : ℚ) (e : ℤ) (he : 0 ≤ e) (hhi : a < (2 : ℚ) ^ (e + 1)) :
    binade a ≤ e := by
  unfold binade
  rcases le_or_lt a 0 with h0 | hpos
  · rw [Int.log_of_right_le_zero 2 h0]
    omega
  · have h2 : Int.log 2 a < e + 1 := by
      have := (Int.lt_zpow_iff_log_lt (b := 2) (by norm_num) hpos (x := e + 1)).mp
        (by exact_mod_cast hhi)
      exact this
    omega

theorem binade_ge (a : ℚ) : -1022 ≤ binade a := by
  unfold binade
  exact le_max_right _ _

theorem roundMag_le (a T : ℚ) (k : ℤ) (hT : T = (k : ℚ) * ulp a) (h : a ≤ T) :
    roundMag a ≤ T := by
  have hu := ulp_pos a
  have hk : a / ulp a ≤ (k : ℚ) := by
    rw [div_le_iff₀ hu]
    linarith
  have := roundHalfEven_le_of_le _ k hk
  have hc : ((roundHalfEven (a / ulp a) : ℤ) : ℚ) ≤ (k : ℚ) := by exact_mod_cast this
  unfold roundMag
  rw [hT]
  exact mul_le_mul_of_nonneg_right hc hu.le

theorem le_roundMag (a T : ℚ) (k : ℤ) (hT : T = (k : ℚ) * ulp a) (h : T ≤ a) :
    T ≤ roundMag a := by
  have hu := ulp_pos a
  have hk : (k : ℚ) ≤ a / ulp a := by
    rw [le_div_iff₀ hu]
    linarith
  have := le_roundHalfEven_of_le _ k hk
  have hc : (k : ℚ) ≤ ((roundHalfEven (a / ulp a) : ℤ) : ℚ) := by exact_mod_cast this
  unfold roundMag
  rw [hT]
  exact mul_le_mul_of_nonneg_right hc hu.le

/-- A power of two at or above the spacing is a whole multiple of it. -/
theorem zpow_multiple_ulp (a : ℚ) (j : ℤ) (hj : binade a - 52 ≤ j) :
    ∃ k : ℤ, (2 : ℚ) ^ j = (k : ℚ) * ulp a := by
  obtain ⟨t, ht⟩ := Int.eq_ofNat_of_zero_le (by omega : 0 ≤ j - (binade a - 52))
  refine ⟨(2 : ℤ) ^ t, ?_⟩
  unfold ulp
  have : j = (t : ℤ) + (binade a - 52) := by omega
  rw [this, zpow_add₀ (by norm_num : (2 : ℚ) ≠ 0)]
  push_cast
  simp

/-- A whole number is a whole multiple of the spacing around any magnitude
below 2^53. -/
theorem natCast_multiple_ulp (a : ℚ) (t : ℕ) (ha : a < 2 ^ 53) :
    ∃ k : ℤ, (t : ℚ) = (k : ℚ) * ulp a := by
  have hb : binade a ≤ 52 := binade_le a 52 (by norm_num) (by norm_num; linarith)
  obtain ⟨k, hk⟩ := zpow_multiple_ulp a 0 (by omega)
  refine ⟨(t : ℤ) * k, ?_⟩
  push_cast
  rw [mul_assoc, ← hk]
  simp

theorem fl_of_nonneg (x : ℚ) (hx : 0 ≤ x) :
    fl x = if 2 ^ 1024 ≤ roundMag x then Num.posInf else Num.fin (roundMag x) := by
  simp [fl, hx, abs_of_nonneg hx]

theorem roundMag_nonneg (a : ℚ) (ha : 0 ≤ a) : 0 ≤ roundMag a := by
  have hu := ulp_pos a
  have h0 : (0 : ℤ) ≤ roundHalfEven (a / ulp a) :=
    le_roundHalfEven_of_le _ 0 (by simpa using div_nonneg ha hu.le)
  unfold roundMag
  have : (0 : ℚ) ≤ ((roundHalfEven (a / ulp a) : ℤ) : ℚ) := by exact_mod_cast h0
  positivity

theorem roundMag_zero : roundMag 0 = 0 := by
  simp [roundMag, roundHalfEven]

/-- A value `m * 2^j` with `m < 2^53` and `j` not below the subnormal spacing
is a binary64 Number and rounds to itself. -/
theorem roundMag_dyadic (m : ℕ) (j : ℤ) (hm : m < 2 ^ 53) (hj : -1074 ≤ j) :
    roundMag ((m : ℚ) * (2 : ℚ) ^ j) = (m : ℚ) * (2 : ℚ) ^ j := by
  rcases Nat.eq_zero_or_pos m with h0 | hpos
  · subst h0
    simpa using roundMag_zero
  have hxpos : (0 : ℚ) < (m : ℚ) * (2 : ℚ) ^ j := by positivity
  have hb : binade ((m : ℚ) * (2 : ℚ) ^ j) - 52 ≤ j := by
    have hlt : (m : ℚ) * (2 : ℚ) ^ j < (2 : ℚ) ^ (53 + j) := by
      rw [zpow_add₀ (by norm_num : (2 : ℚ) ≠ 0)]
      have h53 : (2 : ℚ) ^ (53 : ℤ) = ((2 ^ 53 : ℕ) : ℚ) := by norm_num
      have : (m : ℚ) < (2 : ℚ) ^ (53 : ℤ) := by
        rw [h53]
        exact_mod_cast hm
      exact mul_lt_mul_of_pos_right this (by positivity)
    have h2 : Int.log 2 ((m : ℚ) * (2 : ℚ) ^ j) < 53 + j :=
      (Int.lt_zpow_iff_log_lt (b := 2) (by norm_num) hxpos (x := 53 + j)).mp
        (by exact_mod_cast hlt)
    unfold binade
    omega
  obtain ⟨k, hk⟩ := zpow_multiple_ulp _ j hb
  generalize hx : (m : ℚ) * (2 : ℚ) ^ j = x at hk ⊢
  have hxk : x = (((m : ℤ) * k : ℤ) : ℚ) * ulp x := by
    calc x = (m : ℚ) * (2 : ℚ) ^ j := hx.symm
      _ = (m : ℚ) * ((k : ℚ) * ulp x) := by rw [hk]
      _ = (((m : ℤ) * k : ℤ) : ℚ) * ulp x := by push_cast; ring
  have hu := ulp_pos x
  have hdiv : x / ulp x = (((m : ℤ) * k : ℤ) : ℚ) := by
    rw [div_eq_iff hu.ne']
    exact hxk
  unfold roundMag
  rw [hdiv, roundHalfEven_intCast]
  exact hxk.symm

theorem fl_dyadic (m : ℕ) (j : ℤ) (hm : m < 2 ^ 53) (hj : -1074 ≤ j)
    (hfin : (m : ℚ) * (2 : ℚ) ^ j < 2 ^ 1024) :
    fl ((m : ℚ) * (2 : ℚ) ^ j) = Num.fin ((m : ℚ) * (2 : ℚ) ^ j) := by
  have hx : (0 : ℚ) ≤ (m : ℚ) * (2 : ℚ) ^ j :=
    mul_nonneg (Nat.cast_nonneg m) (zpow_nonneg (by norm_num) j)
  rw [fl_of_nonneg _ hx, roundMag_dyadic m j hm hj, if_neg (not_le.mpr hfin)]

theorem fl_natCast (n : ℕ) (hn : n ≤ 2 ^ 53) : fl (n : ℚ) = Num.fin (n : ℚ) := by
  rcases Nat.lt_or_ge n (2 ^ 53) with h | h
  · have := fl_dyadic n 0 h (by norm_num) (by
      have : (n : ℚ) < ((2 ^ 53 : ℕ) : ℚ) := by exact_mod_cast h
      norm_num at this ⊢
      linarith)
    simpa using this
  · have hn53 : n = 2 ^ 53 := le_antisymm hn h
    have h1 := fl_dyadic 1 53 (by norm_num) (by norm_num) (by norm_num)
    have hc : ((n : ℕ) : ℚ) = ((1 : ℕ) : ℚ) * (2 : ℚ) ^ (53 : ℤ) := by
      rw [hn53]; norm_num
    rw [hc]
    exact h1

/-- Rounding of a positive value in a known binade, the rounded quotient
being given. -/
theorem fl_eval (x : ℚ) (e n : ℤ) (he : -1022 ≤ e) (hlo : (2 : ℚ) ^ e ≤ x)
    (hhi : x < (2 : ℚ) ^ (e + 1)) (hn : roundHalfEven (x / (2 : ℚ) ^ (e - 52)) = n)
    (hfin : (n : ℚ) * (2 : ℚ) ^ (e - 52) < 2 ^ 1024) :
    fl x = Num.fin ((n : ℚ) * (2 : ℚ) ^ (e - 52)) := by
  have hpos : 0 < x := lt_of_lt_of_le (by positivity) hlo
  have hb := binade_eq x e he hlo hhi
  have hr : roundMag x = (n : ℚ) * (2 : ℚ) ^ (e - 52) := by
    unfold roundMag ulp
    rw [hb, hn]
  rw [fl_of_nonneg _ hpos.le, hr, if_neg (not_le.mpr hfin)]

/-! ## Numbers in binary64 arithmetic -/

theorem fl_nonneg_cases (x : ℚ) (hx : 0 ≤ x) :
    fl x = Num.posInf ∨ ∃ y : ℚ, fl x = Num.fin y ∧ 0 ≤ y := by
  rw [fl_of_nonneg x hx]
  by_cases h : 2 ^ 1024 ≤ roundMag x
  · left; rw [if_pos h]
  · right; exact ⟨roundMag x, by rw [if_neg h], roundMag_nonneg x hx⟩

theorem roundMag_of_fl (x : ℚ) (hx : 0 ≤ x) (h : fl x = Num.fin x) : roundMag x = x := by
  rw [fl_of_nonneg x hx] at h
  by_cases hb : 2 ^ 1024 ≤ roundMag x
  · rw [if_pos hb] at h; exact absurd h (by simp)
  · rw [if_neg hb] at h
    exact Num.fin.inj h

theorem roundMag_of_fl_eq (x y : ℚ) (hx : 0 ≤ x) (h : fl x = Num.fin y) : roundMag x = y := by
  rw [fl_of_nonneg x hx] at h
  by_cases hb : 2 ^ 1024 ≤ roundMag x
  · rw [if_pos hb] at h; exact absurd h (by simp)
  · rw [if_neg hb] at h
    exact Num.fin.inj h

/-- Rounding a non-negative value below 2^53 stays at or below every whole
number above it, and at or above every whole number below it. -/
theorem fl_between (x : ℚ) (hx : 0 ≤ x) (h53 : x < 2 ^ 53) :
    ∃ y : ℚ, fl x = Num.fin y ∧ 0 ≤ y ∧
      (∀ t : ℕ, x ≤ (t : ℚ) → y ≤ (t : ℚ)) ∧ (∀ t : ℕ, (t : ℚ) ≤ x → (t : ℚ) ≤ y) := by
  have hup : ∀ t : ℕ, x ≤ (t : ℚ) → roundMag x ≤ (t : ℚ) := by
    intro t ht
    obtain ⟨k, hk⟩ := natCast_multiple_ulp x t h53
    exact roundMag_le x t k hk ht
  have hlo : ∀ t : ℕ, (t : ℚ) ≤ x → (t : ℚ) ≤ roundMag x := by
    intro t ht
    obtain ⟨k, hk⟩ := natCast_multiple_ulp x t h53
    exact le_roundMag x t k hk ht
  have hfin : ¬ (2 ^ 1024 ≤ roundMag x) := by
    have h1 := hup (2 ^ 53) (by push_cast; linarith)
    have h2 : (((2 ^ 53 : ℕ) : ℚ)) < 2 ^ 1024 := by norm_num
    exact not_le.mpr (lt_of_le_of_lt h1 h2)
  refine ⟨roundMag x, ?_, roundMag_nonneg x hx, hup, hlo⟩
  rw [fl_of_nonneg x hx, if_neg hfin]

theorem neNum_fin (a b : ℚ) : neNum (Num.fin a) (Num.fin b) = decide (a ≠ b) := by
  simp [neNum]

theorem eqNum_fin (a b : ℚ) : eqNum (Num.fin a) (Num.fin b) = decide (a = b) := by
  simp [eqNum, neNum]

theorem neNum_nan (x : Num) : neNum x Num.nan = true := by
  cases x <;> simp [neNum]

theorem ltNum_fin (a b : ℚ) : ltNum (Num.fin a) (Num.fin b) = decide (a < b) := by
  simp [ltNum]

theorem addNum_fin (a b : ℚ) : addNum (Num.fin a) (Num.fin b) = fl (a + b) := rfl

theorem fl_zero : fl 0 = Num.fin 0 := by
  simpa using fl_natCast 0 (by norm_num)

theorem fl_one : fl 1 = Num.fin 1 := by
  simpa using fl_natCast 1 (by norm_num)

theorem fl_two : fl 2 = Num.fin 2 := by
  simpa using fl_natCast 2 (by norm_num)

theorem fl_three : fl 3 = Num.fin 3 := by
  simpa using fl_natCast 3 (by norm_num)

/-- The quotient of two non-negative arguments, when it is a finite Number, is
non-negative. -/
theorem divNum_fl_nonneg (s d q : ℚ) (hs : 0 ≤ s) (hd : 0 ≤ d)
    (h : divNum (fl s) (fl d) = Num.fin q) : 0 ≤ q := by
  rcases fl_nonneg_cases s hs with hs1 | ⟨s1, hs1, hs0⟩ <;>
    rcases fl_nonneg_cases d hd with hd1 | ⟨d1, hd1, hd0⟩
  · rw [hs1, hd1] at h; simp [divNum] at h
  · rw [hs1, hd1] at h
    simp only [divNum] at h
    split_ifs at h
  · rw [hs1, hd1] at h
    simp only [divNum] at h
    rw [← Num.fin.inj h]
  · rw [hs1, hd1] at h
    simp only [divNum] at h
    split_ifs at h with h1
    rcases fl_nonneg_cases (s1 / d1) (div_nonneg hs0 hd0) with hq | ⟨y, hy, hy0⟩
    · rw [hq] at h; exact absurd h (by simp)
    · rw [hy] at h
      rw [← Num.fin.inj h]
      exact hy0

/-- A quotient that is not a finite Number makes the Chosen One NaN. -/
theorem chosenOneF_nan (seed d n : ℚ)
    (h : ∀ q : ℚ, divNum (fl seed) (fl d) ≠ Num.fin q) : chosenOneF seed d n = Num.nan := by
  unfold chosenOneF
  cases hq : divNum (fl seed) (fl d) with
  | fin q => exact absurd hq (h q)
  | posInf => simp [modNum, jsFloor]
  | negInf => simp [modNum, jsFloor]
  | nan => simp [modNum, jsFloor]

/-- A finite quotient makes the Chosen One a whole number below the player
count. -/
theorem chosenOneF_fin (seed d q : ℚ) (n : ℕ) (hs : 0 ≤ seed) (hd : 0 ≤ d)
    (hn1 : 1 ≤ n) (hn2 : n ≤ 2 ^ 53) (h : divNum (fl seed) (fl d) = Num.fin q) :
    ∃ c : ℕ, chosenOneF seed d (n : ℚ) = Num.fin (c : ℚ) ∧ c < n := by
  have hq0 := divNum_fl_nonneg seed d q hs hd h
  have hnq : (0 : ℚ) < (n : ℚ) := by exact_mod_cast hn1
  obtain ⟨h0, h1⟩ := fmod_nonneg_lt q (n : ℚ) hq0 hnq
  have hfl : 0 ≤ ⌊fmod q (n : ℚ)⌋ := Int.floor_nonneg.mpr h0
  have hcast : ((⌊fmod q (n : ℚ)⌋.toNat : ℕ) : ℚ) = ((⌊fmod q (n : ℚ)⌋ : ℤ) : ℚ) := by
    have : ((⌊fmod q (n : ℚ)⌋.toNat : ℤ)) = ⌊fmod q (n : ℚ)⌋ := Int.toNat_of_nonneg hfl
    exact_mod_cast this
  refine ⟨⌊fmod q (n : ℚ)⌋.toNat, ?_, ?_⟩
  · unfold chosenOneF
    rw [h, fl_natCast n hn2, hcast]
    simp [modNum, jsFloor, hnq.ne']
  · have hle : ((⌊fmod q (n : ℚ)⌋ : ℤ) : ℚ) ≤ fmod q (n : ℚ) := Int.floor_le _
    have : ((⌊fmod q (n : ℚ)⌋.toNat : ℕ) : ℚ) < (n : ℚ) := by
      rw [hcast]; linarith
    exact_mod_cast this

/-- The roll expression evaluates to the rounded product when that is below
100. -/
theorem rollF_eq (r x : ℚ) (h : fl (r * 100) = Num.fin x) (h0 : 0 ≤ x) (h1 : x < 100) :
    rollF r = Num.fin x := by
  unfold rollF
  rw [h]
  simp [modNum, fmod_eq_self x 100 h0 h1]

/-- For a roll that is a Number, the rounded sum `1 + roll` is below a whole
threshold `T` exactly when the exact sum is, provided `T` lies in the binade
`(2^e + 1, 2^(e+1)]`. -/
theorem one_add_roll_lt_iff (roll : ℚ) (T e : ℕ) (hnum : fl roll = Num.fin roll)
    (h0 : 0 ≤ roll) (h100 : roll < 100) (he : e ≤ 52) (hT1 : 2 ^ e + 1 < T)
    (hT2 : T ≤ 2 ^ (e + 1)) :
    ltNum (addNum (Num.fin 1) (Num.fin roll)) (Num.fin (T : ℚ)) = true ↔
      1 + roll < (T : ℚ) := by
  have hx0 : (0 : ℚ) ≤ 1 + roll := by linarith
  have hx53 : 1 + roll < 2 ^ 53 := by norm_num; linarith
  obtain ⟨y, hy, _, hup, hlo⟩ := fl_between (1 + roll) hx0 hx53
  rw [addNum_fin, hy, ltNum_fin, decide_eq_true_eq]
  constructor
  · intro hlt
    by_contra hge
    have := hlo T (not_lt.mp hge)
    linarith
  · intro hlt
    have hT2q : (T : ℚ) ≤ (2 : ℚ) ^ ((e : ℤ) + 1) := by
      have : (T : ℚ) ≤ ((2 ^ (e + 1) : ℕ) : ℚ) := by exact_mod_cast hT2
      have h2 : (2 : ℚ) ^ ((e : ℤ) + 1) = ((2 ^ (e + 1) : ℕ) : ℚ) := by
        push_cast
        norm_cast
      rw [h2]; exact this
    have hpow : (2 : ℚ) ^ (e : ℤ) = (2 : ℚ) ^ e := zpow_natCast 2 e
    rcases le_or_lt ((2 : ℚ) ^ (e : ℤ)) roll with hbig | hsmall
    · -- the roll and the sum share a binade: the sum is a Number
      have hb1 : binade roll = (e : ℤ) :=
        binade_eq roll e (by omega) hbig (by linarith)
      have hb2 : binade (1 + roll) = (e : ℤ) :=
        binade_eq (1 + roll) e (by omega) (by linarith) (by linarith)
      have hr := roundMag_of_fl roll h0 hnum
      have hu : ulp (1 + roll) = ulp roll := by
        unfold ulp; rw [hb1, hb2]
      obtain ⟨k, hk⟩ := zpow_multiple_ulp roll 0 (by rw [hb1]; omega)
      have hone : (1 : ℚ) = (k : ℚ) * ulp roll := by simpa using hk
      have hupos := ulp_pos roll
      have hdiv : (1 + roll) / ulp (1 + roll) =
          ((k + roundHalfEven (roll / ulp roll) : ℤ) : ℚ) := by
        rw [hu, div_eq_iff hupos.ne']
        push_cast
        have : roll = (roundHalfEven (roll / ulp roll) : ℚ) * ulp roll := by
          conv_lhs => rw [← hr]
          rfl
        linarith
      have hexact : roundMag (1 + roll) = 1 + roll := by
        unfold roundMag
        rw [hdiv, roundHalfEven_intCast, ← hdiv]
        exact div_mul_cancel₀ _ (ulp_pos _).ne'
      have hyx : y = 1 + roll := by
        have h2 := roundMag_of_fl_eq (1 + roll) y hx0 hy
        rw [← h2, hexact]
      rw [hyx]; exact hlt
    · have hle : 1 + roll ≤ ((2 ^ e + 1 : ℕ) : ℚ) := by
        push_cast
        rw [hpow] at hsmall
        linarith
      have h1 := hup (2 ^ e + 1) hle
      have h2 : ((2 ^ e + 1 : ℕ) : ℚ) < (T : ℚ) := by exact_mod_cast hT1
      linarith

/-! ## The start-game loop in binary64 arithmetic -/

theorem startGameLoopF_done (n : ℚ) (chosen : Num) (rng : ℕ → ℚ) (p k : ℕ) (resp : String)
    (h : ¬ (p : ℚ) < n) : startGameLoopF n chosen rng p k resp = resp := by
  rw [startGameLoopF]
  simp [h]

theorem neNum_natCast (p c : ℕ) :
    neNum (Num.fin (p : ℚ)) (Num.fin (c : ℚ)) = decide (p ≠ c) := by
  simp [neNum]

/-- The loop reads the Chosen One only through the test `_prophet != chosenOne`
at the indices below the player count. -/
theorem startGameLoopF_congr (n : ℕ) (c1 c2 : Num) (rng : ℕ → ℚ)
    (h : ∀ p : ℕ, p < n → neNum (Num.fin (p : ℚ)) c1 = neNum (Num.fin (p : ℚ)) c2) :
    ∀ (m p k : ℕ) (resp : String), p + m = n →
      startGameLoopF (n : ℚ) c1 rng p k resp = startGameLoopF (n : ℚ) c2 rng p k resp := by
  intro m
  induction m with
  | zero =>
    intro p k resp hp
    have hpn : ¬ ((p : ℚ) < (n : ℚ)) := by
      have : p = n := by omega
      simp [this]
    rw [startGameLoopF_done _ _ _ _ _ _ hpn, startGameLoopF_done _ _ _ _ _ _ hpn]
  | succ m ih =>
    intro p k resp hp
    have hlt : p < n := by omega
    have hpn : (p : ℚ) < (n : ℚ) := by exact_mod_cast hlt
    rw [startGameLoopF, startGameLoopF.eq_1 (n : ℚ) c2]
    simp only [hpn, dite_true, h p hlt]
    exact ih (p + 1) _ _ (by omega)

theorem startGameLoopF_chars (n c : ℕ) (rng : ℕ → ℚ) :
    ∀ (m p k : ℕ) (resp : String), p + m = n → k = (if p ≤ c then p else p - 1) →
      ∃ t : List Char,
        (startGameLoopF (n : ℚ) (Num.fin (c : ℚ)) rng p k resp).data = resp.data ++ t ∧
        t.length = m ∧
        (∀ i : ℕ, p ≤ i → i < n → t[i - p]? = some
          (if i = c then '1'
           else if ltNum (addNum (Num.fin 1) (rollF (rng (drawIndex c i)))) (Num.fin 25) = true
             then '0' else '1')) := by
  intro m
  induction m with
  | zero =>
    intro p k resp hp _
    have hpn : ¬ ((p : ℚ) < (n : ℚ)) := by
      have : p = n := by omega
      simp [this]
    refine ⟨[], ?_, rfl, ?_⟩
    · rw [startGameLoopF_done _ _ _ _ _ _ hpn]; simp
    · intro i h1 h2; omega
  | succ m ih =>
    intro p k resp hp hk
    have hpn : (p : ℚ) < (n : ℚ) := by
      have : p < n := by omega
      exact_mod_cast this
    rw [startGameLoopF]
    simp only [hpn, dite_true, neNum_natCast, decide_eq_true_eq]
    by_cases hpc : p = c
    · subst hpc
      simp only [ne_eq, not_true_eq_false, if_false]
      obtain ⟨t, ht, hlen, hc⟩ := ih (p + 1) k (resp ++ "1") (by omega)
        (by simp at hk; simp [hk])
      refine ⟨'1' :: t, ?_, by simp [hlen], ?_⟩
      · rw [ht, String.data_append]; simp
      · intro i h1 h2
        rcases Nat.eq_or_lt_of_le h1 with h | h
        · subst h; simp
        · have hstep : i - p = (i - (p + 1)) + 1 := by omega
          rw [hstep]
          simpa using hc i h h2
    · simp only [ne_eq, hpc, not_false_eq_true, if_true]
      have hkd : k = drawIndex c p := by
        unfold drawIndex
        by_cases hlt : p < c
        · simp [hlt, hk, hlt.le]
        · have : ¬ p ≤ c := by omega
          simp [hlt, hk, this]
      have hk1 : k + 1 = (if p + 1 ≤ c then p + 1 else p + 1 - 1) := by
        by_cases hlt : p < c
        · have h1 : p + 1 ≤ c := hlt
          simp [hk, hlt.le, h1]
        · have h1 : ¬ p + 1 ≤ c := by omega
          have h2 : ¬ p ≤ c := by omega
          simp only [hk, h1, h2, if_false]
          omega
      generalize hres :
        (if ltNum (addNum (Num.fin 1) (rollF (rng k))) (Num.fin 25) = true then "0" else "1")
          = result
      obtain ⟨t, ht, hlen, hc⟩ := ih (p + 1) (k + 1) (resp ++ result) (by omega) hk1
      have hone : result.data =
          [if ltNum (addNum (Num.fin 1) (rollF (rng (drawIndex c p)))) (Num.fin 25) = true
            then '0' else '1'] := by
        rw [← hres, ← hkd]
        split_ifs <;> rfl
      refine ⟨(if ltNum (addNum (Num.fin 1) (rollF (rng (drawIndex c p)))) (Num.fin 25) = true
          then '0' else '1') :: t, ?_, by simp [hlen], ?_⟩
      · rw [ht, String.data_append, hone]; simp
      · intro i h1 h2
        rcases Nat.eq_or_lt_of_le h1 with h | h
        · subst h; simp [hpc]
        · have hstep : i - p = (i - (p + 1)) + 1 := by omega
          rw [hstep]
          simpa using hc i h h2

/-- With a NaN Chosen One every prophet rolls: the loop is the one for a
Chosen One beyond the last index. -/
theorem startGameLoopF_nan (n : ℕ) (rng : ℕ → ℚ) :
    startGameLoopF (n : ℚ) Num.nan rng 0 0 "" =
      startGameLoopF (n : ℚ) (Num.fin (n : ℚ)) rng 0 0 "" := by
  apply startGameLoopF_congr n Num.nan (Num.fin (n : ℚ)) rng _ n 0 0 "" (by omega)
  intro p hp
  rw [neNum_nan, neNum_natCast]
  simp
  omega

/-! ## Overflow of the quotient -/

theorem fl_overflow (x : ℚ) (h : (2 : ℚ) ^ 1024 ≤ x) : fl x = Num.posInf := by
  have hz : (2 : ℚ) ^ ((1024 : ℕ) : ℤ) ≤ x := by
    rw [zpow_natCast]; exact h
  have hpos : 0 < x := lt_of_lt_of_le (by positivity) hz
  have hlog : ((1024 : ℕ) : ℤ) ≤ Int.log 2 x :=
    (Int.zpow_le_iff_le_log (b := 2) (by norm_num) hpos (x := ((1024 : ℕ) : ℤ))).mp
      (by exact_mod_cast hz)
  have hb : binade x = Int.log 2 x := by
    unfold binade; omega
  have hself : (2 : ℚ) ^ (binade x) ≤ x := by
    rw [hb]
    have := Int.zpow_log_le_self (b := 2) (r := x) (by norm_num) hpos
    exact_mod_cast this
  obtain ⟨k, hk⟩ := zpow_multiple_ulp x (binade x) (by omega)
  have hge := le_roundMag x _ k hk hself
  have hbig : (2 : ℚ) ^ ((1024 : ℕ) : ℤ) ≤ (2 : ℚ) ^ (binade x) :=
    zpow_le_zpow_right₀ (by norm_num) (by omega)
  have hover : (2 : ℚ) ^ 1024 ≤ roundMag x := by
    rw [← zpow_natCast]
    exact le_trans hbig hge
  rw [fl_of_nonneg x hpos.le, if_pos hover]

theorem divNum_posInf_ne_fin (y : Num) (q : ℚ) : divNum Num.posInf y ≠ Num.fin q := by
  cases y with
  | fin b =>
    simp only [divNum]
    split_ifs <;> simp
  | posInf => simp [divNum]
  | negInf => simp [divNum]
  | nan => simp [divNum]

/-- A positive normal value rounds to at least the power of two that starts
its binade. -/
theorem one_le_roundMag (d : ℚ) (hd : 1 ≤ d) : 1 ≤ roundMag d := by
  have hpos : 0 < d := by linarith
  have hlog : (0 : ℤ) ≤ Int.log 2 d :=
    (Int.zpow_le_iff_le_log (b := 2) (by norm_num) hpos (x := 0)).mp (by simpa using hd)
  have hb : binade d = Int.log 2 d := by
    unfold binade; omega
  have hself : (2 : ℚ) ^ (binade d) ≤ d := by
    rw [hb]
    have := Int.zpow_log_le_self (b := 2) (r := d) (by norm_num) hpos
    exact_mod_cast this
  obtain ⟨k, hk⟩ := zpow_multiple_ulp d (binade d) (by omega)
  have hge := le_roundMag d _ k hk hself
  have h1 : (1 : ℚ) ≤ (2 : ℚ) ^ (binade d) := by
    rw [hb]
    exact one_le_zpow₀ (by norm_num) hlog
  linarith

/-- A non-negative value below 2^256 rounds to a finite Number of at most
2^256. -/
theorem fl_below_256 (x : ℚ) (h0 : 0 ≤ x) (h : x ≤ (2 : ℚ) ^ (256 : ℤ)) :
    ∃ y : ℚ, fl x = Num.fin y ∧ 0 ≤ y ∧ y ≤ (2 : ℚ) ^ (256 : ℤ) := by
  have hb : binade x ≤ 256 := binade_le x 256 (by norm_num)
    (lt_of_le_of_lt h (by norm_num))
  obtain ⟨k, hk⟩ := zpow_multiple_ulp x 256 (by omega)
  have hle := roundMag_le x _ k hk h
  have hfin : ¬ ((2 : ℚ) ^ 1024 ≤ roundMag x) := by
    have : (2 : ℚ) ^ (256 : ℤ) < (2 : ℚ) ^ 1024 := by norm_num
    exact not_le.mpr (lt_of_le_of_lt hle this)
  exact ⟨roundMag x, by rw [fl_of_nonneg x h0, if_neg hfin], roundMag_nonneg x h0, hle⟩

/-- For a seed below 2^256 and a divisor of at least 1 the quotient is a
finite Number. -/
theorem quotient_finite (seed d : ℚ) (h0 : 0 ≤ seed) (h : seed < (2 : ℚ) ^ (256 : ℤ))
    (hd : 1 ≤ d) : ∃ q : ℚ, divNum (fl seed) (fl d) = Num.fin q := by
  obtain ⟨s, hs, hs0, hs1⟩ := fl_below_256 seed h0 h.le
  have hd0 : 0 ≤ d := by linarith
  rw [hs, fl_of_nonneg d hd0]
  by_cases hov : (2 : ℚ) ^ 1024 ≤ roundMag d
  · rw [if_pos hov]
    exact ⟨0, by simp [divNum]⟩
  · rw [if_neg hov]
    have hd1 := one_le_roundMag d hd
    have hne : roundMag d ≠ 0 := by linarith
    have hq0 : 0 ≤ s / roundMag d := div_nonneg hs0 (by linarith)
    have hq1 : s / roundMag d ≤ (2 : ℚ) ^ (256 : ℤ) :=
      le_trans (div_le_self hs0 hd1) hs1
    obtain ⟨q, hq, _, _⟩ := fl_below_256 _ hq0 hq1
    exact ⟨q, by simp [divNum, hne, hq]⟩

/-! ## The claims in binary64 arithmetic -/

/-- C1 as stated fails: for the seed 10^400 the quotient by the default divisor
is Infinity in binary64 arithmetic and the Chosen One is NaN, not an index
below the player count. -/
theorem chosenOneF_overflow_nan :
    (0 : ℚ) ≤ 10 ^ 400 ∧ chosenOneF (10 ^ 400) decryptorDefault 5 = Num.nan := by
  have hseed : fl (10 ^ 400) = Num.posInf := fl_overflow _ (by norm_num)
  refine ⟨by norm_num, chosenOneF_nan _ _ _ ?_⟩
  intro q
  rw [hseed]
  exact divNum_posInf_ne_fin _ q

/-- A finite quotient makes the Chosen One a whole number below the Number the
player count converts to. -/
theorem chosenOneF_fin_lt (seed d n q : ℚ) (hs : 0 ≤ seed) (hd : 0 ≤ d) (hn : 1 ≤ n)
    (h : divNum (fl seed) (fl d) = Num.fin q) :
    ∃ c : ℤ, chosenOneF seed d n = Num.fin (c : ℚ) ∧ 0 ≤ c ∧
      ltNum (Num.fin (c : ℚ)) (fl n) = true := by
  have hq0 := divNum_fl_nonneg seed d q hs hd h
  have hn0 : 0 ≤ n := by linarith
  unfold chosenOneF
  rw [h, fl_of_nonneg n hn0]
  by_cases hov : (2 : ℚ) ^ 1024 ≤ roundMag n
  · rw [if_pos hov]
    exact ⟨⌊q⌋, by simp [modNum, jsFloor], Int.floor_nonneg.mpr hq0, by simp [ltNum]⟩
  · rw [if_neg hov]
    have hn1 := one_le_roundMag n hn
    have hpos : 0 < roundMag n := by linarith
    obtain ⟨h0, h1⟩ := fmod_nonneg_lt q (roundMag n) hq0 hpos
    refine ⟨⌊fmod q (roundMag n)⌋, by simp [modNum, jsFloor, hpos.ne'],
      Int.floor_nonneg.mpr h0, ?_⟩
    rw [ltNum_fin, decide_eq_true_eq]
    exact lt_of_le_of_lt (Int.floor_le _) h1

/-- C1, amended: for every seed >= 0, divisor > 0 and playerCount >= 1, the
derivation evaluated in binary64 arithmetic yields, whenever the quotient
seed / divisor is a finite Number (as it is for every seed below 2^256 and
divisor >= 1), an integer `c` with `0 <= c` and `c` below the Number that
playerCount converts to, hence `c < playerCount` when playerCount is itself a
Number; it yields NaN when the quotient is not finite. -/
theorem chosenOneF_in_range (seed divisor playerCount : ℚ)
    (hs : 0 ≤ seed) (hd : 0 < divisor) (hn : 1 ≤ playerCount) :
    ((∃ q : ℚ, divNum (fl seed) (fl divisor) = Num.fin q) →
      ∃ c : ℤ, chosenOneF seed divisor playerCount = Num.fin (c : ℚ) ∧ 0 ≤ c ∧
        ltNum (Num.fin (c : ℚ)) (fl playerCount) = true ∧
        (fl playerCount = Num.fin playerCount → (c : ℚ) < playerCount)) ∧
    ((¬ ∃ q : ℚ, divNum (fl seed) (fl divisor) = Num.fin q) →
      chosenOneF seed divisor playerCount = Num.nan) ∧
    (seed < (2 : ℚ) ^ (256 : ℤ) → 1 ≤ divisor →
      ∃ q : ℚ, divNum (fl seed) (fl divisor) = Num.fin q) := by
  refine ⟨?_, ?_, ?_⟩
  · rintro ⟨q, hq⟩
    obtain ⟨c, hc, hc0, hlt⟩ := chosenOneF_fin_lt seed divisor playerCount q hs hd.le hn hq
    refine ⟨c, hc, hc0, hlt, ?_⟩
    intro hnum
    rw [hnum, ltNum_fin, decide_eq_true_eq] at hlt
    exact hlt
  · intro hnot
    exact chosenOneF_nan _ _ _ (fun q hq => hnot ⟨q, hq⟩)
  · intro hlt hd1
    exact quotient_finite seed divisor hs hlt hd1

theorem chosenOneF_in_range_witness :
    (0 : ℚ) ≤ 17 ∧ (0 : ℚ) < 2 ∧ (1 : ℚ) ≤ 5 ∧
      ∃ c : ℤ, chosenOneF 17 2 5 = Num.fin (c : ℚ) ∧ 0 ≤ c ∧ (c : ℚ) < 5 := by
  have h := chosenOneF_in_range 17 2 5 (by norm_num) (by norm_num) (by norm_num)
  have h5 : fl 5 = Num.fin 5 := by simpa using fl_natCast 5 (by norm_num)
  obtain ⟨c, hc, hc0, _, hlt⟩ := h.1 (h.2.2 (by norm_num) (by norm_num))
  exact ⟨by norm_num, by norm_num, by norm_num, c, hc, hc0, hlt h5⟩

theorem responseF_startGame (d seed turn share : ℚ) (n : ℕ) (rng : ℕ → ℚ)
    (hn53 : n ≤ 2 ^ 53) :
    responseF d ⟨seed, (n : ℚ), 3, turn, share⟩ rng =
      some (startGameLoopF (n : ℚ) (chosenOneF seed d (n : ℚ)) rng 0 0 "") := by
  simp only [responseF, fl_three, eqNum_fin, fl_natCast n hn53]
  norm_num
  intro h
  norm_num at hn53
  omega

/-- C4 as stated fails: for the seed 10^400 the Chosen One is NaN, every
prophet rolls, and with draws of 0 the response is "00000", with no '1' at
any index. -/
theorem startGameF_overflow_all_dead :
    chosenOneF (10 ^ 400) decryptorDefault ((5 : ℕ) : ℚ) = Num.nan ∧
      responseF decryptorDefault ⟨10 ^ 400, ((5 : ℕ) : ℚ), 3, 0, 0⟩ (fun _ => 0)
        = some "00000" := by
  have hseed : fl (10 ^ 400) = Num.posInf := fl_overflow _ (by norm_num)
  have hc : chosenOneF (10 ^ 400) decryptorDefault ((5 : ℕ) : ℚ) = Num.nan := by
    apply chosenOneF_nan
    intro q
    rw [hseed]
    exact divNum_posInf_ne_fin _ q
  have hroll : rollF 0 = Num.fin 0 :=
    rollF_eq 0 0 (by simpa using fl_zero) le_rfl (by norm_num)
  have hdead : ltNum (addNum (Num.fin 1) (rollF 0)) (Num.fin 25) = true := by
    rw [hroll, addNum_fin]
    norm_num [fl_one, ltNum_fin]
  refine ⟨hc, ?_⟩
  rw [responseF_startGame _ _ _ _ 5 _ (by norm_num), hc]
  have step : ∀ (p k : ℕ) (resp : String), p < 5 →
      startGameLoopF ((5 : ℕ) : ℚ) Num.nan (fun _ => 0) p k resp =
        startGameLoopF ((5 : ℕ) : ℚ) Num.nan (fun _ => 0) (p + 1) (k + 1) (resp ++ "0") := by
    intro p k resp hp
    have hpn : (p : ℚ) < ((5 : ℕ) : ℚ) := by exact_mod_cast hp
    rw [startGameLoopF]
    simp only [hpn, dite_true, neNum_nan, if_true, hdead]
  rw [step 0 0 _ (by norm_num), step 1 1 _ (by norm_num), step 2 2 _ (by norm_num),
    step 3 3 _ (by norm_num), step 4 4 _ (by norm_num),
    startGameLoopF_done _ _ _ _ _ _ (by norm_num)]
  rfl

/-- C4, amended: for StartGame (action 3), with seed >= 0, divisor > 0 and a
whole playerCount with 1 <= playerCount <= 2^53, the response has exactly
playerCount characters, whatever the draws are; whenever the quotient
seed / divisor is a finite Number the Chosen One is an index and the character
at that index is '1'. -/
theorem startGameF_length_and_chosen (seed divisor : ℚ) (playerCount : ℕ)
    (actingTurn stakeShare : ℚ) (rng : ℕ → ℚ)
    (hs : 0 ≤ seed) (hd : 0 < divisor) (hn : 1 ≤ playerCount) (hn53 : playerCount ≤ 2 ^ 53) :
    ∃ s : String,
      responseF divisor ⟨seed, (playerCount : ℚ), 3, actingTurn, stakeShare⟩ rng = some s ∧
      s.length = playerCount ∧
      ((∃ q : ℚ, divNum (fl seed) (fl divisor) = Num.fin q) →
        ∃ c : ℕ, chosenOneF seed divisor (playerCount : ℚ) = Num.fin (c : ℚ) ∧
          s.data[c]? = some '1') := by
  refine ⟨_, responseF_startGame _ _ _ _ playerCount _ hn53, ?_, ?_⟩
  · by_cases hq : ∃ q : ℚ, divNum (fl seed) (fl divisor) = Num.fin q
    · obtain ⟨q, hq⟩ := hq
      obtain ⟨c, hc, _⟩ := chosenOneF_fin seed divisor q playerCount hs hd.le hn hn53 hq
      obtain ⟨t, ht, hlen, _⟩ :=
        startGameLoopF_chars playerCount c rng playerCount 0 0 "" (by omega) (by simp)
      rw [hc, String.length, ht]
      simpa using hlen
    · have hc := chosenOneF_nan seed divisor (playerCount : ℚ) (fun q h => hq ⟨q, h⟩)
      obtain ⟨t, ht, hlen, _⟩ :=
        startGameLoopF_chars playerCount playerCount rng playerCount 0 0 "" (by omega)
          (by simp)
      rw [hc, startGameLoopF_nan, String.length, ht]
      simpa using hlen
  · rintro ⟨q, hq⟩
    obtain ⟨c, hc, hlt⟩ := chosenOneF_fin seed divisor q playerCount hs hd.le hn hn53 hq
    obtain ⟨t, ht, _, hch⟩ :=
      startGameLoopF_chars playerCount c rng playerCount 0 0 "" (by omega) (by simp)
    refine ⟨c, hc, ?_⟩
    rw [hc, ht]
    simpa using hch c (Nat.zero_le c) hlt

theorem startGameF_length_and_chosen_witness :
    (0 : ℚ) ≤ 17 ∧ (0 : ℚ) < 2 ∧ 1 ≤ 5 ∧ 5 ≤ 2 ^ 53 ∧
      ∃ s : String,
        responseF 2 ⟨17, ((5 : ℕ) : ℚ), 3, 0, 0⟩ (fun _ => 0) = some s ∧
        s.length = 5 ∧
        ((∃ q : ℚ, divNum (fl 17) (fl 2) = Num.fin q) →
          ∃ c : ℕ, chosenOneF 17 2 ((5 : ℕ) : ℚ) = Num.fin (c : ℚ) ∧
            s.data[c]? = some '1') :=
  ⟨by norm_num, by norm_num, by norm_num, by norm_num,
    startGameF_length_and_chosen 17 2 5 0 0 (fun _ => 0)
      (by norm_num) (by norm_num) (by norm_num) (by norm_num)⟩

/-- C15 as stated fails: for the seed 10^400 no index is the Chosen One (it is
NaN), so the prophet at every index takes a draw; with draws of 0 the
response is "00000", where the claim puts a '1' at the Chosen One. -/
theorem startGameF_overflow_every_prophet_rolls :
    (∀ c : ℕ, chosenOneF (10 ^ 400) decryptorDefault ((5 : ℕ) : ℚ) ≠ Num.fin (c : ℚ)) ∧
      responseF decryptorDefault ⟨10 ^ 400, ((5 : ℕ) : ℚ), 3, 2, 50⟩ (fun _ => 0)
        = some "00000" := by
  have hseed : fl (10 ^ 400) = Num.posInf := fl_overflow _ (by norm_num)
  have hc : chosenOneF (10 ^ 400) decryptorDefault ((5 : ℕ) : ℚ) = Num.nan := by
    apply chosenOneF_nan
    intro q
    rw [hseed]
    exact divNum_posInf_ne_fin _ q
  have hroll : rollF 0 = Num.fin 0 :=
    rollF_eq 0 0 (by simpa using fl_zero) le_rfl (by norm_num)
  have hdead : ltNum (addNum (Num.fin 1) (rollF 0)) (Num.fin 25) = true := by
    rw [hroll, addNum_fin]
    norm_num [fl_one, ltNum_fin]
  refine ⟨fun c => by rw [hc]; simp, ?_⟩
  rw [responseF_startGame _ _ _ _ 5 _ (by norm_num), hc]
  have step : ∀ (p k : ℕ) (resp : String), p < 5 →
      startGameLoopF ((5 : ℕ) : ℚ) Num.nan (fun _ => 0) p k resp =
        startGameLoopF ((5 : ℕ) : ℚ) Num.nan (fun _ => 0) (p + 1) (k + 1) (resp ++ "0") := by
    intro p k resp hp
    have hpn : (p : ℚ) < ((5 : ℕ) : ℚ) := by exact_mod_cast hp
    rw [startGameLoopF]
    simp only [hpn, dite_true, neNum_nan, if_true, hdead]
  rw [step 0 0 _ (by norm_num), step 1 1 _ (by norm_num), step 2 2 _ (by norm_num),
    step 3 3 _ (by norm_num), step 4 4 _ (by norm_num),
    startGameLoopF_done _ _ _ _ _ _ (by norm_num)]
  rfl

/-- C15, amended: for StartGame (action 3) with a whole playerCount,
1 <= playerCount <= 2^53, and rolls that are Numbers in [0,100): when the
quotient seed / divisor is a finite Number the character at each index `i` is
'1' if `i` is the Chosen One, and otherwise '0' exactly when `1 + roll < 25`
for that prophet's own roll (draws in ascending index order, the Chosen One
taking none), '1' otherwise; when the quotient is not finite the Chosen One is
NaN and every index is decided by its own roll in the same way.  The response
does not depend on the acting turn or the stake share. -/
theorem startGameF_characters (seed divisor : ℚ) (playerCount : ℕ)
    (actingTurn stakeShare : ℚ) (rng roll : ℕ → ℚ)
    (hs : 0 ≤ seed) (hd : 0 < divisor) (hn : 1 ≤ playerCount) (hn53 : playerCount ≤ 2 ^ 53)
    (hroll : ∀ k, rollF (rng k) = Num.fin (roll k))
    (hnum : ∀ k, fl (roll k) = Num.fin (roll k))
    (hrange : ∀ k, 0 ≤ roll k ∧ roll k < 100) :
    ∃ s : String,
      responseF divisor ⟨seed, (playerCount : ℚ), 3, actingTurn, stakeShare⟩ rng = some s ∧
      ((∃ q : ℚ, divNum (fl seed) (fl divisor) = Num.fin q) →
        ∃ c : ℕ, chosenOneF seed divisor (playerCount : ℚ) = Num.fin (c : ℚ) ∧
          ∀ i : ℕ, i < playerCount → s.data[i]? = some
            (if i = c then '1'
             else if 1 + roll (drawIndex c i) < 25 then '0' else '1')) ∧
      ((¬ ∃ q : ℚ, divNum (fl seed) (fl divisor) = Num.fin q) →
        chosenOneF seed divisor (playerCount : ℚ) = Num.nan ∧
          ∀ i : ℕ, i < playerCount → s.data[i]? = some
            (if 1 + roll i < 25 then '0' else '1')) ∧
      (∀ turn2 share2 : ℚ,
        responseF divisor ⟨seed, (playerCount : ℚ), 3, turn2, share2⟩ rng = some s) := by
  have htest : ∀ k, (ltNum (addNum (Num.fin 1) (rollF (rng k))) (Num.fin 25) = true ↔
      1 + roll k < 25) := by
    intro k
    rw [hroll k]
    simpa using one_add_roll_lt_iff (roll k) 25 4 (hnum k) (hrange k).1 (hrange k).2
      (by norm_num) (by norm_num) (by norm_num)
  refine ⟨_, responseF_startGame _ _ _ _ playerCount _ hn53, ?_, ?_, ?_⟩
  · rintro ⟨q, hq⟩
    obtain ⟨c, hc, _⟩ := chosenOneF_fin seed divisor q playerCount hs hd.le hn hn53 hq
    obtain ⟨t, ht, _, hch⟩ :=
      startGameLoopF_chars playerCount c rng playerCount 0 0 "" (by omega) (by simp)
    refine ⟨c, hc, ?_⟩
    intro i hi
    rw [hc, ht]
    have := hch i (Nat.zero_le i) hi
    simpa [htest] using this
  · intro hq
    have hc := chosenOneF_nan seed divisor (playerCount : ℚ) (fun q h => hq ⟨q, h⟩)
    obtain ⟨t, ht, _, hch⟩ :=
      startGameLoopF_chars playerCount playerCount rng playerCount 0 0 "" (by omega)
        (by simp)
    refine ⟨hc, ?_⟩
    intro i hi
    rw [hc, startGameLoopF_nan, ht]
    have := hch i (Nat.zero_le i) hi
    have hidx : drawIndex playerCount i = i := by simp [drawIndex, hi]
    have hne : i ≠ playerCount := by omega
    simpa [htest, hidx, hne] using this
  · intro turn2 share2
    exact responseF_startGame _ _ _ _ playerCount _ hn53

/-! ## Rounding at the thresholds -/

theorem two_zpow_succ (b : ℤ) :
    (2 : ℚ) ^ (b + 1) = 9007199254740992 * (2 : ℚ) ^ (b - 52) := by
  have h53 : (9007199254740992 : ℚ) = (2 : ℚ) ^ (53 : ℤ) := by norm_num
  rw [h53, ← zpow_add₀ (by norm_num : (2 : ℚ) ≠ 0)]
  congr 1
  ring

theorem lt_zpow_binade_succ (x : ℚ) : x < (2 : ℚ) ^ (binade x + 1) := by
  have h1 : x < (2 : ℚ) ^ (Int.log 2 x + 1) := by
    have := Int.lt_zpow_succ_log_self (b := 2) (by norm_num) x
    exact_mod_cast this
  have h2 : (2 : ℚ) ^ (Int.log 2 x + 1) ≤ (2 : ℚ) ^ (binade x + 1) := by
    apply zpow_le_zpow_right₀ (by norm_num)
    unfold binade
    omega
  exact lt_of_lt_of_le h1 h2

/-- A finite result of rounding is a Number: rounding it again changes
nothing. -/
theorem fl_idem (x y : ℚ) (hx : 0 ≤ x) (h : fl x = Num.fin y) : fl y = Num.fin y := by
  rcases eq_or_lt_of_le hx with h0 | hpos
  · rw [← h0] at h
    rw [fl_zero] at h
    rw [← Num.fin.inj h, fl_zero]
  have hy : roundMag x = y := roundMag_of_fl_eq x y hx h
  have hfin : y < 2 ^ 1024 := by
    rw [fl_of_nonneg x hx] at h
    by_cases hb : 2 ^ 1024 ≤ roundMag x
    · rw [if_pos hb] at h; exact absurd h (by simp)
    · rw [← hy]; exact not_le.mp hb
  have hu := ulp_pos x
  have hn0 : (0 : ℤ) ≤ roundHalfEven (x / ulp x) :=
    le_roundHalfEven_of_le _ 0 (by simpa using div_nonneg hx hu.le)
  have hn53 : roundHalfEven (x / ulp x) ≤ 2 ^ 53 := by
    apply roundHalfEven_le_of_le
    rw [div_le_iff₀ hu]
    have := lt_zpow_binade_succ x
    have hsplit : (2 : ℚ) ^ (binade x + 1) = (((2 : ℤ) ^ 53 : ℤ) : ℚ) * ulp x := by
      unfold ulp
      push_cast
      exact two_zpow_succ _
    rw [← hsplit]
    exact this.le
  obtain ⟨n, hn⟩ := Int.eq_ofNat_of_zero_le hn0
  have hyn : y = (n : ℚ) * (2 : ℚ) ^ (binade x - 52) := by
    rw [← hy]
    unfold roundMag
    rw [hn]
    rfl
  have hj : -1074 ≤ binade x - 52 := by
    have := binade_ge x
    omega
  rcases Nat.lt_or_ge n (2 ^ 53) with hlt | hge
  · rw [hyn]
    exact fl_dyadic n _ hlt hj (by rw [← hyn]; exact hfin)
  · have hn_eq : n = 2 ^ 53 := by
      have : (n : ℤ) ≤ 2 ^ 53 := by rw [← hn]; exact hn53
      have : n ≤ 2 ^ 53 := by exact_mod_cast this
      omega
    have hy2 : y = ((1 : ℕ) : ℚ) * (2 : ℚ) ^ (binade x + 1) := by
      rw [hyn, hn_eq]
      push_cast
      rw [one_mul]
      exact (two_zpow_succ _).symm
    rw [hy2]
    exact fl_dyadic 1 _ (by norm_num) (by omega) (by rw [← hy2]; exact hfin)

theorem chosenOneF_17_2_5 : chosenOneF 17 2 5 = Num.fin 3 := by
  have h17 : fl 17 = Num.fin 17 := by simpa using fl_natCast 17 (by norm_num)
  have h5 : fl 5 = Num.fin 5 := by simpa using fl_natCast 5 (by norm_num)
  have hq : fl (17 / 2) = Num.fin (17 / 2) := by
    have := fl_dyadic 17 (-1) (by norm_num) (by norm_num) (by norm_num)
    norm_num at this ⊢
    exact this
  simp only [chosenOneF, h17, fl_two, h5, divNum, modNum, jsFloor]
  norm_num [hq, fmod, trunc]

theorem responseF_miracle (d seed n turn share : ℚ) (rng : ℕ → ℚ) :
    responseF d ⟨seed, n, 0, turn, share⟩ rng =
      some (if neNum (fl turn) (chosenOneF seed d n) = true then
        (if ltNum (addNum (addNum (Num.fin 1) (rollF (rng 0)))
            (divNum (fl share) (Num.fin 10))) (Num.fin 25) = true then "0" else "1")
        else "1") := by
  simp [responseF, fl_zero, eqNum_fin]

theorem responseF_smite (d seed n turn share : ℚ) (rng : ℕ → ℚ) :
    responseF d ⟨seed, n, 1, turn, share⟩ rng =
      some (if neNum (fl turn) (chosenOneF seed d n) = true then
        (if ltNum (addNum (addNum (Num.fin 1) (rollF (rng 0)))
            (divNum (fl share) (Num.fin 2))) (Num.fin 90) = true then "2" else "3")
        else "3") := by
  simp [responseF, fl_one, eqNum_fin]

theorem responseF_accuse (d seed n turn share : ℚ) (rng : ℕ → ℚ) :
    responseF d ⟨seed, n, 2, turn, share⟩ rng =
      some (if ltNum (addNum (addNum (Num.fin 1) (rollF (rng 0))) (fl share))
          (Num.fin 90) = true then "4" else "5") := by
  simp [responseF, fl_two, eqNum_fin]

/-- The draw 131730289100587 / 2^49 (0.23399999999999999) gives the roll
3293257227514675 / 2^47 (23.4 to sixteen digits). -/
theorem rollF_miracle_draw :
    rollF (131730289100587 / 2 ^ 49) = Num.fin (3293257227514675 / 2 ^ 47) := by
  apply rollF_eq _ _ _ (by norm_num) (by norm_num)
  have h := fl_dyadic 3293257227514675 (-47) (by norm_num) (by norm_num) (by norm_num)
  norm_num at h ⊢
  exact h

/-- The draw 2882303761517117 / 2^52 (0.6399999999999999) gives the roll
9007199254740991 / 2^47 (63.99999999999999). -/
theorem rollF_smite_draw :
    rollF (2882303761517117 / 2 ^ 52) = Num.fin (9007199254740991 / 2 ^ 47) := by
  apply rollF_eq _ _ _ (by norm_num) (by norm_num)
  have h := fl_eval (2882303761517117 / 2 ^ 52 * 100) 5 9007199254740991 (by norm_num)
    (by norm_num) (by norm_num) (by norm_num [roundHalfEven]) (by norm_num)
  norm_num at h ⊢
  exact h

/-- The sum `1 + 63.99999999999999` is a tie between two Numbers and rounds to
the even one, 65. -/
theorem one_add_smite_roll :
    addNum (Num.fin 1) (Num.fin (9007199254740991 / 2 ^ 47)) = Num.fin 65 := by
  rw [addNum_fin]
  have h := fl_eval (1 + 9007199254740991 / 2 ^ 47) 6 4573968371548160 (by norm_num)
    (by norm_num) (by norm_num) (by norm_num [roundHalfEven]) (by norm_num)
  norm_num at h ⊢
  exact h

/-- C9 as stated fails: at stake share 6 and the roll 3293257227514675 / 2^47
the exact score `1 + roll + 6/10` is below 25, but the score the script
computes rounds to exactly 25 and the response is "1". -/
theorem miracleF_score_rounds_to_threshold :
    rollF (131730289100587 / 2 ^ 49) = Num.fin (3293257227514675 / 2 ^ 47) ∧
    (1 : ℚ) + 3293257227514675 / 2 ^ 47 + 6 / 10 < 25 ∧
    neNum (fl 1) (chosenOneF 17 2 5) = true ∧
    responseF 2 ⟨17, 5, 0, 1, 6⟩ (fun _ => 131730289100587 / 2 ^ 49) = some "1" := by
  have hne : neNum (fl 1) (chosenOneF 17 2 5) = true := by
    rw [fl_one, chosenOneF_17_2_5, neNum_fin]
    norm_num
  have h6 : fl 6 = Num.fin 6 := by simpa using fl_natCast 6 (by norm_num)
  have hsum : addNum (Num.fin 1) (Num.fin (3293257227514675 / 2 ^ 47)) =
      Num.fin (3433994715870003 / 2 ^ 47) := by
    rw [addNum_fin]
    have h := fl_dyadic 3433994715870003 (-47) (by norm_num) (by norm_num) (by norm_num)
    norm_num at h ⊢
    exact h
  have hdiv : divNum (Num.fin 6) (Num.fin 10) = Num.fin (5404319552844595 / 2 ^ 53) := by
    have h := fl_eval (6 / 10) (-1) 5404319552844595 (by norm_num) (by norm_num)
      (by norm_num) (by norm_num [roundHalfEven]) (by norm_num)
    simp only [divNum]
    norm_num at h ⊢
    exact h
  have hscore : addNum (Num.fin (3433994715870003 / 2 ^ 47))
      (Num.fin (5404319552844595 / 2 ^ 53)) = Num.fin 25 := by
    rw [addNum_fin]
    have h := fl_eval (3433994715870003 / 2 ^ 47 + 5404319552844595 / 2 ^ 53) 4
      7036874417766400 (by norm_num) (by norm_num) (by norm_num)
      (by norm_num [roundHalfEven]) (by norm_num)
    norm_num at h ⊢
    exact h
  refine ⟨rollF_miracle_draw, by norm_num, hne, ?_⟩
  rw [responseF_miracle, hne, rollF_miracle_draw, h6, hsum, hdiv, hscore, ltNum_fin]
  norm_num

/-- C9, amended: for Miracle (action 0) by an actor who is not the Chosen One,
the response is "0" exactly when the score `1 + roll + stakeShare/10`, each
operation rounded to the nearest binary64 Number as the script evaluates it,
is below 25, and is "1" otherwise. -/
theorem miracleF_outcome (divisor seed playerCount actingTurn stakeShare roll : ℚ)
    (rng : ℕ → ℚ)
    (hne : neNum (fl actingTurn) (chosenOneF seed divisor playerCount) = true)
    (hroll : rollF (rng 0) = Num.fin roll) :
    (responseF divisor ⟨seed, playerCount, 0, actingTurn, stakeShare⟩ rng = some "0" ↔
      ltNum (addNum (addNum (Num.fin 1) (Num.fin roll))
        (divNum (fl stakeShare) (Num.fin 10))) (Num.fin 25) = true) ∧
    (ltNum (addNum (addNum (Num.fin 1) (Num.fin roll))
        (divNum (fl stakeShare) (Num.fin 10))) (Num.fin 25) = false →
      responseF divisor ⟨seed, playerCount, 0, actingTurn, stakeShare⟩ rng = some "1") := by
  rw [responseF_miracle, hne, hroll]
  cases hlt : ltNum (addNum (addNum (Num.fin 1) (Num.fin roll))
      (divNum (fl stakeShare) (Num.fin 10))) (Num.fin 25) <;> simp

theorem miracleF_outcome_witness :
    neNum (fl 1) (chosenOneF 17 2 5) = true ∧
    rollF (131730289100587 / 2 ^ 49) = Num.fin (3293257227514675 / 2 ^ 47) ∧
    (responseF 2 ⟨17, 5, 0, 1, 6⟩ (fun _ => 131730289100587 / 2 ^ 49) = some "0" ↔
      ltNum (addNum (addNum (Num.fin 1) (Num.fin (3293257227514675 / 2 ^ 47)))
        (divNum (fl 6) (Num.fin 10))) (Num.fin 25) = true) := by
  have hne : neNum (fl 1) (chosenOneF 17 2 5) = true := by
    rw [fl_one, chosenOneF_17_2_5, neNum_fin]
    norm_num
  exact ⟨hne, rollF_miracle_draw,
    (miracleF_outcome 2 17 5 1 6 (3293257227514675 / 2 ^ 47)
      (fun _ => 131730289100587 / 2 ^ 49) hne rollF_miracle_draw).1⟩

theorem rollF_half : rollF (1 / 2) = Num.fin 50 := by
  apply rollF_eq _ _ _ (by norm_num) (by norm_num)
  have h := fl_natCast 50 (by norm_num)
  norm_num at h ⊢
  exact h

theorem rollF_zero : rollF 0 = Num.fin 0 :=
  rollF_eq 0 0 (by simpa using fl_zero) le_rfl (by norm_num)

theorem neNum_one_chosen : neNum (fl 1) (chosenOneF 17 2 5) = true := by
  rw [fl_one, chosenOneF_17_2_5, neNum_fin]
  norm_num

/-- C10 as stated fails: at stake share 50 and the roll 9007199254740991 / 2^47
(63.99999999999999) the exact score `1 + roll + 50/2` is below 90, but the
sum `1 + roll` rounds to 65, the score the script computes is exactly 90 and
the response is "3". -/
theorem smiteF_score_rounds_to_threshold :
    rollF (2882303761517117 / 2 ^ 52) = Num.fin (9007199254740991 / 2 ^ 47) ∧
    (1 : ℚ) + 9007199254740991 / 2 ^ 47 + 50 / 2 < 90 ∧
    neNum (fl 1) (chosenOneF 17 2 5) = true ∧
    responseF 2 ⟨17, 5, 1, 1, 50⟩ (fun _ => 2882303761517117 / 2 ^ 52) = some "3" := by
  have h50 : fl 50 = Num.fin 50 := by simpa using fl_natCast 50 (by norm_num)
  have hdiv : divNum (Num.fin 50) (Num.fin 2) = Num.fin 25 := by
    have h := fl_natCast 25 (by norm_num)
    simp only [divNum]
    norm_num at h ⊢
    exact h
  have hscore : addNum (Num.fin 65) (Num.fin 25) = Num.fin 90 := by
    rw [addNum_fin]
    have h := fl_natCast 90 (by norm_num)
    norm_num at h ⊢
    exact h
  refine ⟨rollF_smite_draw, by norm_num, neNum_one_chosen, ?_⟩
  rw [responseF_smite, neNum_one_chosen, rollF_smite_draw, h50, one_add_smite_roll, hdiv,
    hscore, ltNum_fin]
  norm_num

/-- C10, amended: for Smite (action 1) by an actor who is not the Chosen One,
with a roll that is a Number in [0,100), the response is "2" exactly when the
score `1 + roll + stakeShare/2`, each operation rounded to the nearest
binary64 Number as the script evaluates it, is below 90, and is "3"
otherwise; at stake share 0 the response is "2" exactly when `roll < 89`. -/
theorem smiteF_outcome (divisor seed playerCount actingTurn stakeShare roll : ℚ)
    (rng : ℕ → ℚ)
    (hne : neNum (fl actingTurn) (chosenOneF seed divisor playerCount) = true)
    (hroll : rollF (rng 0) = Num.fin roll) (hnum : fl roll = Num.fin roll)
    (h0 : 0 ≤ roll) (h100 : roll < 100) :
    (responseF divisor ⟨seed, playerCount, 1, actingTurn, stakeShare⟩ rng = some "2" ↔
      ltNum (addNum (addNum (Num.fin 1) (Num.fin roll))
        (divNum (fl stakeShare) (Num.fin 2))) (Num.fin 90) = true) ∧
    (ltNum (addNum (addNum (Num.fin 1) (Num.fin roll))
        (divNum (fl stakeShare) (Num.fin 2))) (Num.fin 90) = false →
      responseF divisor ⟨seed, playerCount, 1, actingTurn, stakeShare⟩ rng = some "3") ∧
    (responseF divisor ⟨seed, playerCount, 1, actingTurn, 0⟩ rng = some "2" ↔
      roll < 89) := by
  refine ⟨?_, ?_, ?_⟩
  · rw [responseF_smite, hne, hroll]
    cases hlt : ltNum (addNum (addNum (Num.fin 1) (Num.fin roll))
      (divNum (fl stakeShare) (Num.fin 2))) (Num.fin 90) <;> simp
  · intro hlt
    rw [responseF_smite, hne, hroll, hlt]
    simp
  · have hx0 : (0 : ℚ) ≤ 1 + roll := by linarith
    obtain ⟨y, hy, hy0, _, _⟩ := fl_between (1 + roll) hx0 (by norm_num; linarith)
    have hzero : divNum (fl 0) (Num.fin 2) = Num.fin 0 := by
      rw [fl_zero]
      simp only [divNum]
      norm_num [fl_zero]
    have hscore : addNum (addNum (Num.fin 1) (Num.fin roll)) (Num.fin 0) =
        addNum (Num.fin 1) (Num.fin roll) := by
      rw [addNum_fin 1 roll, hy, addNum_fin, add_zero]
      exact fl_idem (1 + roll) y hx0 hy
    have hiff := one_add_roll_lt_iff roll 90 6 hnum h0 h100 (by norm_num) (by norm_num)
      (by norm_num)
    rw [responseF_smite, hne, hroll, hzero, hscore]
    have h89 : (1 + roll < ((90 : ℕ) : ℚ)) ↔ roll < 89 := by
      constructor <;> intro h <;> norm_num at h ⊢ <;> linarith
    rw [← h89, ← hiff]
    cases hlt : ltNum (addNum (Num.fin 1) (Num.fin roll)) (Num.fin ((90 : ℕ) : ℚ)) with
    | true =>
      have h' : ltNum (addNum (Num.fin 1) (Num.fin roll)) (Num.fin 90) = true := by
        simpa using hlt
      simp [h']
    | false =>
      have h' : ltNum (addNum (Num.fin 1) (Num.fin roll)) (Num.fin 90) = false := by
        simpa using hlt
      simp [h']

theorem smiteF_outcome_witness :
    neNum (fl 1) (chosenOneF 17 2 5) = true ∧ rollF (1 / 2) = Num.fin 50 ∧
    fl 50 = Num.fin 50 ∧ (0 : ℚ) ≤ 50 ∧ (50 : ℚ) < 100 ∧
    (responseF 2 ⟨17, 5, 1, 1, 0⟩ (fun _ => 1 / 2) = some "2" ↔ (50 : ℚ) < 89) := by
  have h50 : fl 50 = Num.fin 50 := by simpa using fl_natCast 50 (by norm_num)
  exact ⟨neNum_one_chosen, rollF_half, h50, by norm_num, by norm_num,
    (smiteF_outcome 2 17 5 1 0 50 (fun _ => 1 / 2) neNum_one_chosen rollF_half h50
      (by norm_num) (by norm_num)).2.2⟩

/-- C11 as stated fails, also for a stake share that is a number: at stake
share 25 and the roll 9007199254740991 / 2^47 (63.99999999999999) the exact
score `1 + roll + 25` is below 90, but the score the script computes is
exactly 90 and the response is "5". -/
theorem accuseF_score_rounds_to_threshold :
    rollF (2882303761517117 / 2 ^ 52) = Num.fin (9007199254740991 / 2 ^ 47) ∧
    (1 : ℚ) + 9007199254740991 / 2 ^ 47 + 25 < 90 ∧
    responseF 2 ⟨17, 5, 2, 1, 25⟩ (fun _ => 2882303761517117 / 2 ^ 52) = some "5" := by
  have h25 : fl 25 = Num.fin 25 := by simpa using fl_natCast 25 (by norm_num)
  have hscore : addNum (Num.fin 65) (Num.fin 25) = Num.fin 90 := by
    rw [addNum_fin]
    have h := fl_natCast 90 (by norm_num)
    norm_num at h ⊢
    exact h
  refine ⟨rollF_smite_draw, by norm_num, ?_⟩
  rw [responseF_accuse, rollF_smite_draw, h25, one_add_smite_roll, hscore, ltNum_fin]
  norm_num

/-- C11, amended: for Accuse (action 2) with the stake share supplied as a
number, the response is "4" exactly when the score `1 + roll + stakeShare`,
each operation rounded to the nearest binary64 Number as the script evaluates
it, is below 90, and is "5" otherwise. -/
theorem accuseF_outcome (divisor seed playerCount actingTurn stakeShare roll : ℚ)
    (rng : ℕ → ℚ) (hroll : rollF (rng 0) = Num.fin roll) :
    (responseF divisor ⟨seed, playerCount, 2, actingTurn, stakeShare⟩ rng = some "4" ↔
      ltNum (addNum (addNum (Num.fin 1) (Num.fin roll)) (fl stakeShare))
        (Num.fin 90) = true) ∧
    (ltNum (addNum (addNum (Num.fin 1) (Num.fin roll)) (fl stakeShare))
        (Num.fin 90) = false →
      responseF divisor ⟨seed, playerCount, 2, actingTurn, stakeShare⟩ rng = some "5") := by
  rw [responseF_accuse, hroll]
  cases hlt : ltNum (addNum (addNum (Num.fin 1) (Num.fin roll)) (fl stakeShare))
      (Num.fin 90) <;> simp

theorem accuseF_outcome_witness :
    rollF (1 / 2) = Num.fin 50 ∧
    (responseF 2 ⟨17, 5, 2, 1, 25⟩ (fun _ => 1 / 2) = some "4" ↔
      ltNum (addNum (addNum (Num.fin 1) (Num.fin 50)) (fl 25)) (Num.fin 90) = true) :=
  ⟨rollF_half, (accuseF_outcome 2 17 5 1 25 50 (fun _ => 1 / 2) rollF_half).1⟩

theorem startGameF_characters_witness :
    (0 : ℚ) ≤ 17 ∧ (0 : ℚ) < 2 ∧ 1 ≤ 5 ∧ 5 ≤ 2 ^ 53 ∧
    (∀ k : ℕ, rollF ((fun _ => (1 : ℚ) / 2) k) = Num.fin ((fun _ => (50 : ℚ)) k)) ∧
    ∃ s : String,
      responseF 2 ⟨17, ((5 : ℕ) : ℚ), 3, 0, 0⟩ (fun _ => 1 / 2) = some s ∧
      ((∃ q : ℚ, divNum (fl 17) (fl 2) = Num.fin q) →
        ∃ c : ℕ, chosenOneF 17 2 ((5 : ℕ) : ℚ) = Num.fin (c : ℚ) ∧
          ∀ i : ℕ, i < 5 → s.data[i]? = some
            (if i = c then '1'
             else if 1 + (fun _ => (50 : ℚ)) (drawIndex c i) < 25 then '0' else '1')) := by
  have h50 : fl 50 = Num.fin 50 := by simpa using fl_natCast 50 (by norm_num)
  obtain ⟨s, hs, hfin, _, _⟩ := startGameF_characters 17 2 5 0 0 (fun _ => 1 / 2)
    (fun _ => 50) (by norm_num) (by norm_num) (by norm_num) (by norm_num)
    (fun _ => rollF_half) (fun _ => h50) (fun _ => by norm_num)
  exact ⟨by norm_num, by norm_num, by norm_num, by norm_num, fun _ => rollF_half,
    s, hs, hfin⟩

/-! ## The accuse branch with a string stake share -/

theorem textToNumber_eq (s : String) (digits places : ℕ)
    (h1 : decimalDigits s = digits) (h2 : decimalPlaces s = places) :
    textToNumber s = fl ((digits : ℚ) / 10 ^ places) := by
  rw [textToNumber, decimalValue, h1, h2]

/-- C5 fails on the code, through the string concatenation of the accuse
branch: with the stake share supplied
as a string and the draw 4008203668359741 / 2^52, the sum `1 + roll` is the
Number 89.99999999999999; the concatenation with "95" converts to 90 and the
response is "5", the concatenation with the larger share "100" converts to a
Number below 90 and the response is "4". -/
theorem accuse_text_not_monotone :
    rollF (4008203668359741 / 2 ^ 52) = Num.fin (6262818231812095 / 2 ^ 46) ∧
    addNum (Num.fin 1) (Num.fin (6262818231812095 / 2 ^ 46)) =
      Num.fin (6333186975989759 / 2 ^ 46) ∧
    textToNumber "89.99999999999999" = Num.fin (6333186975989759 / 2 ^ 46) ∧
    accuseText "89.99999999999999" "95" = "5" ∧
    accuseText "89.99999999999999" "100" = "4" := by
  have hroll : rollF (4008203668359741 / 2 ^ 52) = Num.fin (6262818231812095 / 2 ^ 46) := by
    apply rollF_eq _ _ _ (by norm_num) (by norm_num)
    have h := fl_eval (4008203668359741 / 2 ^ 52 * 100) 6 6262818231812095 (by norm_num)
      (by norm_num) (by norm_num) (by norm_num [roundHalfEven]) (by norm_num)
    norm_num at h ⊢
    exact h
  have hsum : addNum (Num.fin 1) (Num.fin (6262818231812095 / 2 ^ 46)) =
      Num.fin (6333186975989759 / 2 ^ 46) := by
    rw [addNum_fin]
    have h := fl_dyadic 6333186975989759 (-46) (by norm_num) (by norm_num) (by norm_num)
    norm_num at h ⊢
    exact h
  have htext : textToNumber "89.99999999999999" = Num.fin (6333186975989759 / 2 ^ 46) := by
    rw [textToNumber_eq _ 8999999999999999 14 (by decide) (by decide)]
    have h := fl_eval (8999999999999999 / 10 ^ 14) 6 6333186975989759 (by norm_num)
      (by norm_num) (by norm_num) (by norm_num [roundHalfEven]) (by norm_num)
    norm_num at h ⊢
    exact h
  have h95 : textToNumber ("89.99999999999999" ++ "95") = Num.fin 90 := by
    rw [textToNumber_eq _ 899999999999999995 16 (by decide) (by decide)]
    have h := fl_eval (899999999999999995 / 10 ^ 16) 6 6333186975989760 (by norm_num)
      (by norm_num) (by norm_num) (by norm_num [roundHalfEven]) (by norm_num)
    norm_num at h ⊢
    exact h
  have h100 : textToNumber ("89.99999999999999" ++ "100") =
      Num.fin (6333186975989759 / 2 ^ 46) := by
    rw [textToNumber_eq _ 8999999999999999100 17 (by decide) (by decide)]
    have h := fl_eval (8999999999999999100 / 10 ^ 17) 6 6333186975989759 (by norm_num)
      (by norm_num) (by norm_num) (by norm_num [roundHalfEven]) (by norm_num)
    norm_num at h ⊢
    exact h
  refine ⟨hroll, hsum, htext, ?_, ?_⟩
  · simp only [accuseText]
    rw [h95, ltNum_fin]
    norm_num
  · simp only [accuseText]
    rw [h100, ltNum_fin]
    norm_num

/-- C6 fails on the code, through the string concatenation of the accuse
branch: with the stake share supplied
as the string "100" and the draw 1/8 (roll 12.5), the sum `1 + roll` is 13.5,
the concatenation "13.5100" converts to a Number below 90 and the response is
"4"; the same stake share supplied as the number 100 gives "5". -/
theorem accuse_text_full_stake_fails :
    rollF (1 / 8) = Num.fin (25 / 2) ∧
    addNum (Num.fin 1) (Num.fin (25 / 2)) = Num.fin (27 / 2) ∧
    textToNumber "13.5" = Num.fin (27 / 2) ∧
    accuseText "13.5" "100" = "4" ∧
    responseF 2 ⟨17, 5, 2, 1, 100⟩ (fun _ => 1 / 8) = some "5" := by
  have hroll : rollF (1 / 8) = Num.fin (25 / 2) := by
    apply rollF_eq _ _ _ (by norm_num) (by norm_num)
    have h := fl_dyadic 25 (-1) (by norm_num) (by norm_num) (by norm_num)
    norm_num at h ⊢
    exact h
  have h135 : fl (27 / 2) = Num.fin (27 / 2) := by
    have h := fl_dyadic 27 (-1) (by norm_num) (by norm_num) (by norm_num)
    norm_num at h ⊢
    exact h
  have hsum : addNum (Num.fin 1) (Num.fin (25 / 2)) = Num.fin (27 / 2) := by
    rw [addNum_fin]
    norm_num [h135]
  have htext : textToNumber "13.5" = Num.fin (27 / 2) := by
    rw [textToNumber_eq _ 135 1 (by decide) (by decide)]
    norm_num [h135]
  have hcat : ltNum (textToNumber ("13.5" ++ "100")) (Num.fin 90) = true := by
    rw [textToNumber_eq _ 135100 4 (by decide) (by decide)]
    obtain ⟨y, hy, _, hup, _⟩ := fl_between (((135100 : ℕ) : ℚ) / 10 ^ 4) (by norm_num)
      (by norm_num)
    rw [hy, ltNum_fin, decide_eq_true_eq]
    have := hup 14 (by norm_num)
    norm_num at this ⊢
    linarith
  have h100 : fl 100 = Num.fin 100 := by simpa using fl_natCast 100 (by norm_num)
  have hnum : addNum (Num.fin (27 / 2)) (Num.fin 100) = Num.fin (227 / 2) := by
    rw [addNum_fin]
    have h := fl_dyadic 227 (-1) (by norm_num) (by norm_num) (by norm_num)
    norm_num at h ⊢
    exact h
  refine ⟨hroll, hsum, htext, ?_, ?_⟩
  · simp only [accuseText]
    rw [hcat]
    rfl
  · rw [responseF_accuse, hroll, hsum, h100, hnum, ltNum_fin]
    norm_num

/-- C19 fails on the code, through the string concatenation of the accuse
branch: with the stake share supplied
as the string "88" and the roll 0 the score is the concatenation "188", not
89, and the response is "5"; the same stake share supplied as the number 88
gives "4". -/
theorem accuse_string_share_88_succeeds :
    accuseStringShare 0 88 = "5" ∧
      responseF 2 ⟨17, 5, 2, 1, 88⟩ (fun _ => 0) = some "4" := by
  have h88 : fl 88 = Num.fin 88 := by simpa using fl_natCast 88 (by norm_num)
  have hsum : addNum (Num.fin 1) (Num.fin 0) = Num.fin 1 := by
    rw [addNum_fin]
    norm_num [fl_one]
  have hscore : addNum (Num.fin 1) (Num.fin 88) = Num.fin 89 := by
    rw [addNum_fin]
    have h := fl_natCast 89 (by norm_num)
    norm_num at h ⊢
    exact h
  refine ⟨by decide, ?_⟩
  rw [responseF_accuse, rollF_zero, hsum, h88, hscore, ltNum_fin]
  norm_num

end Phenomenon
